import Mathlib

/-!
# Matching engine and client bookkeeping of the exchange

A shallow embedding of `src/matching/engine.cpp` (`Engine::add_order`,
`Engine::create_ob_update`, `Engine::match_order`), of
`src/client_manager/manager.cpp` (`ClientManager`) and of
`RabbitMQ::waitForClients` in `src/rabbitmq/rabbitmq.cpp`, with theorems about them.

Conventions of the embedding.

* The C++ `float` fields (price, quantity, capital) are exact rationals: rounding,
  infinities and NaN are not modelled.
* `std::priority_queue<MarketOrder>` is a list kept in priority order: `top()` is the
  head, `pop()` drops the head, `push` inserts at the place the ordering gives.
* The client map is an association list with unique keys, in the order of insertion
  (the key order of the C++ map is not modelled); `clients[uid]` is
  `ClientManager.index`, which, like `operator[]` of the standard maps, inserts a
  value-initialised `Client` when the key is absent.
* Mutable objects (`Engine`, `ClientManager`) are passed and returned explicitly.
* The headers `engine.hpp` and `manager.hpp` are not among the sources.  The record
  types are reconstructed from the specification and from the way the code and the
  test helper `testing_utils::validateMatch` use them, `can_match` and the ordering
  of the queue are modelled from the specification, and
  `ClientManager::validateMatch` is a parameter of the engine.
* `MatchOutcome.exit` and `LoopExit.exit` record which `return` statement was taken;
  they are not data of the program.
* The inbound messages are a function from the number of the call of `consumeMessage`
  to the message it returns; `WaitResult.consumed` counts the calls.
-/

namespace nutc

/-! ## Data model -/

/-- The enumeration `messages::SIDE`. -/
inductive SIDE where
  | BUY
  | SELL
deriving DecidableEq, Repr

/-- Modelled from the spec: the record `MarketOrder`, declared in `engine.hpp` (absent
from the sources). It has the fields `engine.cpp` reads (`client_uid`, `side`,
`ticker`, `quantity`, `price`) and the arrival sequence number `seq` that the data
model of the specification gives every order. -/
structure MarketOrder where
  client_uid : String
  side : SIDE
  ticker : String
  quantity : ℚ
  price : ℚ
  seq : ℕ
deriving DecidableEq, Repr

/-- Modelled from the spec: the record `Match`, declared in `engine.hpp` (absent from the
sources), with the fields `ticker`, `buyer_uid`, `seller_uid`, `side`, `price`,
`quantity` in the order of the specification, of the test helper
`testing_utils::validateMatch(match, ticker, buyer_uid, seller_uid, side, price,
quantity)` and of the messages its macros print. -/
structure Match where
  ticker : String
  buyer_uid : String
  seller_uid : String
  side : SIDE
  price : ℚ
  quantity : ℚ
deriving DecidableEq, Repr

/-- Modelled from the spec: the record `ObUpdate`, declared in a header absent from the
sources, with the fields `ticker`, `side`, `price`, `quantity` in the order of the
initialiser in `create_ob_update`. -/
structure ObUpdate where
  ticker : String
  side : SIDE
  price : ℚ
  quantity : ℚ
deriving DecidableEq, Repr

/-- Modelled from the spec: the record `Client`, declared in `manager.hpp` (absent from
the sources), with the three fields of the initialiser `Client{uid, false,
STARTING_CAPITAL}` in `addClient`; `manager.cpp` names `active` and
`capital_remaining`. -/
structure Client where
  uid : String
  active : Bool
  capital_remaining : ℚ
deriving DecidableEq, Repr

/-- The client that `operator[]` of the client map inserts for an absent key: the
value-initialised aggregate (empty string, `false`, `0`). -/
def Client.value_init : Client := ⟨"", false, 0⟩

/-! ## Client manager (`manager.cpp`) -/

/-- The class `ClientManager`: its only data member is the map `clients`. -/
structure ClientManager where
  clients : List (String × Client)
deriving DecidableEq, Repr

/-- Modelled from the spec: the constant `STARTING_CAPITAL` of `manager.hpp` (absent
from the sources), the initial cash of a client, 100000 by default. -/
def STARTING_CAPITAL : ℚ := 100000

/-- Insert-or-overwrite of one key, `clients[uid] = c`. -/
def assign : List (String × Client) → String → Client → List (String × Client)
  | [], uid, c => [(uid, c)]
  | (k, v) :: rest, uid, c =>
    if k = uid then (k, c) :: rest else (k, v) :: assign rest uid c

/-- The value stored under one key, if any. -/
def lookup : List (String × Client) → String → Option Client
  | [], _ => none
  | (k, v) :: rest, uid => if k = uid then some v else lookup rest uid

namespace ClientManager

/-- Lookup without insertion, `clients.find(uid)`. -/
def find (m : ClientManager) (uid : String) : Option Client :=
  lookup m.clients uid

/-- The subscript `clients[uid]`: the client stored under `uid`, after inserting a
value-initialised client when there is none. Returns the client and the map. -/
def index (m : ClientManager) (uid : String) : Client × ClientManager :=
  match m.find uid with
  | some c => (c, m)
  | none => (Client.value_init, ⟨assign m.clients uid Client.value_init⟩)

/-- The method `ClientManager::addClient`. -/
def addClient (m : ClientManager) (uid : String) : ClientManager :=
  if (m.find uid).isSome then m
  else ⟨assign m.clients uid ⟨uid, false, STARTING_CAPITAL⟩⟩

/-- The method `ClientManager::modifyCapital`: adds to `clients[uid].capital_remaining`
and returns the new capital. -/
def modifyCapital (m : ClientManager) (uid : String) (change_in_capital : ℚ) :
    ℚ × ClientManager :=
  let c := (m.index uid).1
  let c1 : Client := { c with capital_remaining := c.capital_remaining + change_in_capital }
  (c1.capital_remaining, ⟨assign (m.index uid).2.clients uid c1⟩)

/-- The method `ClientManager::getCapital`: returns `clients[uid].capital_remaining`,
together with the map after the subscript. -/
def getCapital (m : ClientManager) (uid : String) : ℚ × ClientManager :=
  ((m.index uid).1.capital_remaining, (m.index uid).2)

/-- The method `ClientManager::setClientActive`: the assignment
`clients[uid].active = true`. -/
def setClientActive (m : ClientManager) (uid : String) : ClientManager :=
  ⟨assign (m.index uid).2.clients uid { (m.index uid).1 with active := true }⟩

/-- Sum of the capital of all clients of the map. -/
def total_capital (m : ClientManager) : ℚ :=
  (m.clients.map fun kv => kv.2.capital_remaining).sum

end ClientManager

/-! ## Order book -/

/-- Modelled from the spec: the can-match predicate of `engine.hpp` (absent from the
sources). A resting order `p` and an aggressor `a` can match iff they are on opposite
sides and either `a` buys at a price not below `p.price` or `a` sells at a price not
above `p.price`. -/
def MarketOrder.can_match (p a : MarketOrder) : Bool :=
  decide (p.side ≠ a.side) &&
    ((decide (a.side = SIDE.BUY) && decide (p.price ≤ a.price)) ||
     (decide (a.side = SIDE.SELL) && decide (a.price ≤ p.price)))

/-- Modelled from the spec: the ordering of the queues of `engine.hpp` (absent from the
sources). `a.before b` says that `a` is served before `b`: for bids the higher price
first, for asks the lower price first, ties broken by the lower `seq`. The comparison
`operator<` of the priority queue is its converse. -/
def MarketOrder.before (a b : MarketOrder) : Bool :=
  match a.side with
  | SIDE.BUY => decide (b.price < a.price) || (decide (a.price = b.price) && decide (a.seq < b.seq))
  | SIDE.SELL => decide (a.price < b.price) || (decide (a.price = b.price) && decide (a.seq < b.seq))

/-- The operation `std::priority_queue::push` on the list in priority order: the new
order goes in front of the first resting order it is served before. -/
def push : List MarketOrder → MarketOrder → List MarketOrder
  | [], o => [o]
  | x :: rest, o => if o.before x then o :: x :: rest else x :: push rest o

/-- The queue is in priority order: no order is served before one in front of it. -/
def sorted (q : List MarketOrder) : Prop :=
  q.Pairwise fun x y => y.before x = false

/-- The class `Engine`: the two queues `bids` and `asks`. -/
structure Engine where
  bids : List MarketOrder
  asks : List MarketOrder
deriving DecidableEq, Repr

/-- The return statement through which a call of `match_order` leaves. -/
inductive ExitPath where
  | rejected           -- line 47: the buying aggressor cannot afford its order
  | no_cross           -- line 56: nothing to match against, the aggressor is booked
  | aggressive_failure -- line 77: validateMatch named the side of the aggressor
  | passive_rebooked   -- line 94: the passive order was filled in part and booked again
  | aggressive_filled  -- line 97: the aggressor was filled
  | loop_end           -- line 106: the loop condition became false
deriving DecidableEq, Repr

/-- State of `match_order` when its `while` loop is left. -/
structure LoopExit where
  passive_orders : List MarketOrder
  aggressive_order : MarketOrder
  matched : List Match
  ob_updates : List ObUpdate
  exit : ExitPath
deriving DecidableEq, Repr

/-- What a call of `match_order` returns (`matches` as `matched`, `ob_updates`) together with the
engine and the client manager after the call and the return statement taken. -/
structure MatchOutcome where
  matched : List Match
  ob_updates : List ObUpdate
  engine : Engine
  manager : ClientManager
  exit : ExitPath
deriving DecidableEq, Repr

namespace Engine

/-- The method `Engine::add_order`. -/
def add_order (e : Engine) (aggressive_order : MarketOrder) : Engine :=
  if aggressive_order.side = SIDE.BUY then
    { e with bids := push e.bids aggressive_order }
  else
    { e with asks := push e.asks aggressive_order }

/-- The method `Engine::create_ob_update`. -/
def create_ob_update (order : MarketOrder) (quantity : ℚ) : ObUpdate :=
  ⟨order.ticker, order.side, order.price, quantity⟩

/-- The queue the reference `passive_orders` of `match_order` is bound to. -/
def passive_orders (e : Engine) (aggressive_order : MarketOrder) : List MarketOrder :=
  if aggressive_order.side = SIDE.SELL then e.bids else e.asks

/-- Writing through the reference `passive_orders`. -/
def set_passive_orders (e : Engine) (aggressive_order : MarketOrder)
    (q : List MarketOrder) : Engine :=
  if aggressive_order.side = SIDE.SELL then { e with bids := q } else { e with asks := q }

/-- The candidate `toMatch` of one iteration (lines 62 to 71). -/
def toMatch (passive_order aggressive_order : MarketOrder) : Match :=
  ⟨passive_order.ticker, passive_order.client_uid, aggressive_order.client_uid,
    aggressive_order.side, passive_order.price,
    min passive_order.quantity aggressive_order.quantity⟩

/-- The `while` loop of `match_order` (lines 59 to 99), by recursion on the passive
queue: every iteration that goes on has popped its top. `validateMatch` is
`manager.validateMatch`. -/
def match_loop (validateMatch : Match → Option SIDE) :
    List MarketOrder → MarketOrder → List Match → List ObUpdate → LoopExit
  | [], aggressive_order, matched, ob_updates =>
    ⟨[], aggressive_order, matched, ob_updates, ExitPath.loop_end⟩
  | passive_order :: rest, aggressive_order, matched, ob_updates =>
    if passive_order.can_match aggressive_order = true then
      match validateMatch (toMatch passive_order aggressive_order) with
      | some failure =>
        if failure = aggressive_order.side then
          ⟨passive_order :: rest, aggressive_order, matched, ob_updates,
            ExitPath.aggressive_failure⟩
        else
          match_loop validateMatch rest aggressive_order matched ob_updates
      | none =>
        let quantity_to_match := min passive_order.quantity aggressive_order.quantity
        let ob_updates1 := ob_updates ++ [create_ob_update passive_order 0]
        let matched1 := matched ++ [toMatch passive_order aggressive_order]
        let passive1 : MarketOrder :=
          { passive_order with quantity := passive_order.quantity - quantity_to_match }
        let aggressive1 : MarketOrder :=
          { aggressive_order with quantity := aggressive_order.quantity - quantity_to_match }
        if passive1.quantity > 0 then
          ⟨push rest passive1, aggressive1, matched1,
            ob_updates1 ++ [create_ob_update passive1 passive1.quantity],
            ExitPath.passive_rebooked⟩
        else if aggressive1.quantity ≤ 0 then
          ⟨rest, aggressive1, matched1, ob_updates1, ExitPath.aggressive_filled⟩
        else
          match_loop validateMatch rest aggressive1 matched1 ob_updates1
    else
      ⟨passive_order :: rest, aggressive_order, matched, ob_updates, ExitPath.loop_end⟩

/-- The client manager as `match_order` leaves it after the check of lines 44 to 46:
`getCapital` is evaluated only for a buying aggressor. -/
def manager_after_check (aggressive_order : MarketOrder) (manager : ClientManager) :
    ClientManager :=
  if aggressive_order.side = SIDE.BUY then
    (manager.getCapital aggressive_order.client_uid).2
  else manager

/-- The condition of lines 44 to 46. -/
def cannot_afford (aggressive_order : MarketOrder) (manager : ClientManager) : Bool :=
  decide (aggressive_order.side = SIDE.BUY) &&
    decide (aggressive_order.price * aggressive_order.quantity
      > (manager.getCapital aggressive_order.client_uid).1)

/-- The condition of lines 50 and 51. -/
def no_cross (e : Engine) (aggressive_order : MarketOrder) : Bool :=
  match e.passive_orders aggressive_order with
  | [] => true
  | top :: _ => !top.can_match aggressive_order

/-- The method `Engine::match_order`. The parameter `validateMatch` is
`ClientManager::validateMatch`, whose definition is not among the sources. -/
def match_order (validateMatch : ClientManager → Match → Option SIDE) (e : Engine)
    (aggressive_order : MarketOrder) (manager : ClientManager) : MatchOutcome :=
  let manager1 := manager_after_check aggressive_order manager
  if cannot_afford aggressive_order manager = true then
    ⟨[], [], e, manager1, ExitPath.rejected⟩
  else if no_cross e aggressive_order = true then
    ⟨[], [create_ob_update aggressive_order aggressive_order.quantity],
      e.add_order aggressive_order, manager1, ExitPath.no_cross⟩
  else
    let r := match_loop (validateMatch manager1) (e.passive_orders aggressive_order)
      aggressive_order [] []
    let e1 := e.set_passive_orders aggressive_order r.passive_orders
    if r.exit = ExitPath.loop_end ∧ r.aggressive_order.quantity > 0 then
      ⟨r.matched,
        r.ob_updates ++ [create_ob_update r.aggressive_order r.aggressive_order.quantity],
        e1.add_order r.aggressive_order, manager1, ExitPath.loop_end⟩
    else
      ⟨r.matched, r.ob_updates, e1, manager1, r.exit⟩

/-- The invariant (I1) of the book: every resting order has a positive quantity. -/
def positive (e : Engine) : Prop :=
  (∀ o ∈ e.bids, 0 < o.quantity) ∧ (∀ o ∈ e.asks, 0 < o.quantity)

/-- The book is well formed: the bids are buy orders, the asks are sell orders, and both
queues are in priority order. -/
def wellformed (e : Engine) : Prop :=
  (∀ o ∈ e.bids, o.side = SIDE.BUY) ∧ (∀ o ∈ e.asks, o.side = SIDE.SELL) ∧
  sorted e.bids ∧ sorted e.asks

end Engine

/-! ## Waiting for the clients (`rabbitmq.cpp`) -/

/-- Modelled from the spec: the inbound message, the variant over `InitMessage`
(`client_uid`, `ready`), `MarketOrder` and `RMQError` (`message`) that `consumeMessage`
returns; the three types are declared in headers absent from the sources. -/
inductive IncomingMessage where
  | init (client_uid : String) (ready : Bool)
  | order (o : MarketOrder)
  | error (message : String)
deriving DecidableEq, Repr

/-- The message is an `RMQError`. -/
def IncomingMessage.is_error : IncomingMessage → Bool
  | IncomingMessage.error _ => true
  | _ => false

namespace RabbitMQ

/-- The client manager after `waitForClients`, with the number of inbound messages the
call has consumed. -/
structure WaitResult where
  clients : ClientManager
  consumed : ℕ
deriving DecidableEq, Repr

/-- The `for` loop of `waitForClients` (lines 167 to 189). `inbound i` is the message
that the call number `i` of `consumeMessage` returns, `remaining` the number of
iterations left and `consumed` the number of messages read so far. -/
def wait_loop (inbound : ℕ → IncomingMessage) : ℕ → ℕ → ClientManager → WaitResult
  | 0, consumed, clients => ⟨clients, consumed⟩
  | remaining + 1, consumed, clients =>
    match inbound consumed with
    | IncomingMessage.error _ => ⟨clients, consumed + 1⟩
    | IncomingMessage.order _ => wait_loop inbound remaining (consumed + 1) clients
    | IncomingMessage.init client_uid ready =>
      wait_loop inbound remaining (consumed + 1)
        (if ready = true then clients.setClientActive client_uid else clients)

/-- The method `RabbitMQ::waitForClients`; the counter `i` runs from `0` up to the `int`
`num_clients`, so a count that is not positive gives no iteration. -/
def waitForClients (inbound : ℕ → IncomingMessage) (num_clients : ℤ)
    (clients : ClientManager) : WaitResult :=
  wait_loop inbound num_clients.toNat 0 clients

/-- The ready phase as the specification words it: an `InitMessage` with `ready = true`
marks its client active, every other message leaves the clients as they are. -/
def mark_ready (clients : ClientManager) : IncomingMessage → ClientManager
  | IncomingMessage.init client_uid true => clients.setClientActive client_uid
  | _ => clients

/-- The first `n` messages of the inbound stream. -/
def first_messages (inbound : ℕ → IncomingMessage) (n : ℕ) : List IncomingMessage :=
  (List.range n).map inbound

end RabbitMQ

/-! ## Ledgers used in the examples -/

/-- A ledger that accepts every candidate match. -/
def validate_all : ClientManager → Match → Option SIDE := fun _ _ => none

/-- A ledger that names the given side as failing for every candidate match. -/
def validate_fail (s : SIDE) : ClientManager → Match → Option SIDE := fun _ _ => some s

/-- An inbound stream that begins with the given messages and goes on with market
orders of client `Z`. -/
def stream_of (l : List IncomingMessage) : ℕ → IncomingMessage :=
  fun i => l.getD i (IncomingMessage.order ⟨"Z", SIDE.BUY, "X", 1, 1, 0⟩)

open Engine

/-! ## The matching loop: accumulators and trace -/

theorem Engine.match_loop_acc (V : Match → Option SIDE) (ps : List MarketOrder) :
    ∀ (a : MarketOrder) (ms : List Match) (us : List ObUpdate),
      match_loop V ps a ms us =
        { match_loop V ps a [] [] with
          matched := ms ++ (match_loop V ps a [] []).matched
          ob_updates := us ++ (match_loop V ps a [] []).ob_updates } := by
  induction ps with
  | nil => intro a ms us; simp [match_loop]
  | cons p rest ih =>
    intro a ms us
    simp only [match_loop]
    by_cases hc : p.can_match a = true
    · simp only [hc, if_true]
      cases hv : V (toMatch p a) with
      | some s =>
        simp only []
        by_cases hs : s = a.side
        · simp [hs]
        · simp only [hs, if_false]
          exact ih a ms us
      | none =>
        simp only []
        by_cases hp : p.quantity - min p.quantity a.quantity > 0
        · simp [hp]
        · simp only [hp, if_false]
          by_cases hq : a.quantity - min p.quantity a.quantity ≤ 0
          · simp [hq]
          · simp only [hq, if_false]
            rw [ih _ (ms ++ _) (us ++ _), ih _ ([] ++ _) ([] ++ _)]
            simp
    · simp [hc]

theorem Engine.match_loop_trace (V : Match → Option SIDE) (ps : List MarketOrder) :
    ∀ (a : MarketOrder) (pre : List Match) (m : Match) (post : List Match),
      (match_loop V ps a [] []).matched = pre ++ m :: post →
      ∃ p ∈ ps, m = toMatch p
        { a with quantity := a.quantity - (pre.map Match.quantity).sum } := by
  induction ps with
  | nil => intro a pre m post h; simp [match_loop] at h
  | cons p rest ih =>
    intro a pre m post h
    simp only [match_loop] at h
    by_cases hc : p.can_match a = true
    · simp only [hc, if_true] at h
      cases hv : V (toMatch p a) with
      | some s =>
        simp only [hv] at h
        by_cases hs : s = a.side
        · simp [hs] at h
        · simp only [hs, if_false] at h
          obtain ⟨q, hq, hm⟩ := ih a pre m post h
          exact ⟨q, List.mem_cons_of_mem _ hq, hm⟩
      | none =>
        simp only [hv] at h
        have key : ∀ l : List Match, [toMatch p a] ++ l = pre ++ m :: post →
            (pre = [] ∧ m = toMatch p a) ∨
            ∃ pre1, pre = toMatch p a :: pre1 ∧ l = pre1 ++ m :: post := by
          intro l hl
          cases pre with
          | nil => left; simp at hl; exact ⟨rfl, hl.1.symm⟩
          | cons x pre1 => right; simp at hl; exact ⟨pre1, by rw [hl.1], hl.2⟩
        have base : pre = [] ∧ m = toMatch p a →
            ∃ q ∈ p :: rest, m = toMatch q
              { a with quantity := a.quantity - (pre.map Match.quantity).sum } := by
          rintro ⟨h1, h2⟩
          subst h1
          refine ⟨p, List.mem_cons_self _ _, ?_⟩
          simp [h2]
        by_cases hp : p.quantity - min p.quantity a.quantity > 0
        · simp only [hp, if_true] at h
          rcases key [] (by simpa using h) with h1 | ⟨pre1, _, h2⟩
          · exact base h1
          · simp at h2
        · simp only [hp, if_false] at h
          by_cases hq : a.quantity - min p.quantity a.quantity ≤ 0
          · simp only [hq, if_true] at h
            rcases key [] (by simpa using h) with h1 | ⟨pre1, _, h2⟩
            · exact base h1
            · simp at h2
          · simp only [hq, if_false] at h
            rw [match_loop_acc] at h
            rcases key _ h with h1 | ⟨pre1, h1, h2⟩
            · exact base h1
            · obtain ⟨q, hq, hm⟩ := ih _ pre1 m post h2
              refine ⟨q, List.mem_cons_of_mem _ hq, ?_⟩
              rw [hm, h1]
              simp [toMatch, sub_sub]
    · simp [hc] at h

/-! ## The client map -/

theorem lookup_assign (l : List (String × Client)) (k : String) (v : Client) (uid : String) :
    lookup (assign l k v) uid = if k = uid then some v else lookup l uid := by
  induction l with
  | nil => simp [assign, lookup]
  | cons kv rest ih =>
    obtain ⟨k1, v1⟩ := kv
    by_cases hk : k1 = k
    · subst hk
      by_cases h : k1 = uid
      · simp [assign, lookup, h]
      · simp [assign, lookup, h]
    · by_cases h2 : k1 = uid
      · have h3 : ¬ k = uid := fun h4 => hk (h2.trans h4.symm)
        have h5 : ¬ uid = k := fun h4 => h3 h4.symm
        subst h2
        simp [assign, lookup, h3, h5]
      · simp [assign, lookup, hk, h2, ih]

theorem sum_assign_absent (l : List (String × Client)) (k : String) (v : Client)
    (h : lookup l k = none) :
    ((assign l k v).map fun kv => kv.2.capital_remaining).sum
      = (l.map fun kv => kv.2.capital_remaining).sum + v.capital_remaining := by
  induction l with
  | nil => simp [assign]
  | cons kv rest ih =>
    obtain ⟨k1, v1⟩ := kv
    by_cases hk : k1 = k
    · simp [lookup, hk] at h
    · have h3 : lookup rest k = none := by simpa [lookup, hk] using h
      simp [assign, hk, ih h3, add_assoc]

namespace ClientManager

/-- Reading a capital with `getCapital` does not change what later reads return. -/
theorem getCapital_index (m : ClientManager) (k uid : String) :
    ((m.index k).2.getCapital uid).1 = (m.getCapital uid).1 := by
  unfold index
  cases hf : m.find k with
  | some c => rfl
  | none =>
    have hf1 : lookup m.clients k = none := hf
    simp only [getCapital, index, find, lookup_assign]
    by_cases h : k = uid
    · subst h
      simp [hf1]
    · simp only [h, if_false]
      cases lookup m.clients uid <;> rfl

/-- Reading a capital with `getCapital` leaves the total capital as it is: the client
it may insert has capital `0`. -/
theorem total_capital_index (m : ClientManager) (k : String) :
    (m.index k).2.total_capital = m.total_capital := by
  unfold index
  cases hf : m.find k with
  | some c => rfl
  | none =>
    have hf1 : lookup m.clients k = none := hf
    simp [total_capital, sum_assign_absent _ _ _ hf1, Client.value_init]

/-- On a registered client `clients[uid]` leaves the map as it is. -/
theorem index_registered (m : ClientManager) (k : String) (h : (m.find k).isSome) :
    (m.index k).2 = m := by
  unfold index
  cases hf : m.find k with
  | some c => rfl
  | none => simp [hf] at h

/-- On an unregistered client `clients[uid]` changes the map. -/
theorem index_unregistered (m : ClientManager) (k : String) (h : m.find k = none) :
    (m.index k).2 ≠ m := by
  intro heq
  have h0 : lookup m.clients k = none := h
  have h1 : (m.index k).2.find k = some Client.value_init := by
    simp [index, find, h0, lookup_assign]
  rw [heq, h] at h1
  cases h1

end ClientManager

/-! ## The call as a whole -/

namespace Engine

/-- The client manager after a call is the one the affordability check leaves. -/
theorem match_order_manager (V : ClientManager → Match → Option SIDE) (e : Engine)
    (a : MarketOrder) (mgr : ClientManager) :
    (match_order V e a mgr).manager = manager_after_check a mgr := by
  unfold match_order
  simp only []
  split_ifs <;> rfl

/-- The matches of a call are those of its loop, or none. -/
theorem match_order_matched (V : ClientManager → Match → Option SIDE) (e : Engine)
    (a : MarketOrder) (mgr : ClientManager) :
    (match_order V e a mgr).matched = [] ∨
    (match_order V e a mgr).matched =
      (match_loop (V (manager_after_check a mgr)) (e.passive_orders a) a [] []).matched := by
  unfold match_order
  simp only []
  split_ifs
  · left; rfl
  · left; rfl
  · right; rfl
  · right; rfl

/-- Every match of a call is the candidate formed from an order that rested on the
passive side before the call and the aggressor with the quantity it had left. -/
theorem match_order_trace (V : ClientManager → Match → Option SIDE) (e : Engine)
    (a : MarketOrder) (mgr : ClientManager) (pre : List Match) (m : Match)
    (post : List Match) (h : (match_order V e a mgr).matched = pre ++ m :: post) :
    ∃ p ∈ e.passive_orders a, m = toMatch p
      { a with quantity := a.quantity - (pre.map Match.quantity).sum } := by
  rcases match_order_matched V e a mgr with h1 | h1
  · rw [h1] at h; simp at h
  · rw [h1] at h
    exact match_loop_trace _ _ a pre m post h

theorem manager_after_check_capital (a : MarketOrder) (mgr : ClientManager) (uid : String) :
    ((manager_after_check a mgr).getCapital uid).1 = (mgr.getCapital uid).1 := by
  unfold manager_after_check
  split_ifs
  · exact ClientManager.getCapital_index mgr _ uid
  · rfl

theorem manager_after_check_total (a : MarketOrder) (mgr : ClientManager) :
    (manager_after_check a mgr).total_capital = mgr.total_capital := by
  unfold manager_after_check
  split_ifs
  · exact ClientManager.total_capital_index mgr _
  · rfl

/-- The affordability check gives the same verdict after an earlier check has read a
capital. -/
theorem cannot_afford_after_check (a b : MarketOrder) (mgr : ClientManager) :
    cannot_afford a (manager_after_check b mgr) = cannot_afford a mgr := by
  unfold cannot_afford
  rw [manager_after_check_capital]

end Engine

/-! ## The queue and the ways out of the loop -/

theorem mem_push (l : List MarketOrder) (x o : MarketOrder) :
    o ∈ push l x ↔ o = x ∨ o ∈ l := by
  induction l with
  | nil => simp [push]
  | cons y rest ih =>
    unfold push
    split_ifs
    · simp
    · simp only [List.mem_cons, ih]
      tauto

/-- The ordering does not look at the quantity of the order that is served first. -/
theorem before_quantity_left (p x : MarketOrder) (q : ℚ) :
    MarketOrder.before { p with quantity := q } x = p.before x := rfl

/-- The ordering does not look at the quantity of the order that is served second. -/
theorem before_quantity_right (p x : MarketOrder) (q : ℚ) :
    MarketOrder.before x { p with quantity := q } = x.before p := rfl

namespace Engine

theorem passive_set_passive (e : Engine) (a : MarketOrder) (q : List MarketOrder) :
    (e.set_passive_orders a q).passive_orders a = q := by
  unfold set_passive_orders passive_orders
  split_ifs <;> rfl

theorem set_passive_set_passive (e : Engine) (a : MarketOrder) (q1 q2 : List MarketOrder) :
    (e.set_passive_orders a q1).set_passive_orders a q2 = e.set_passive_orders a q2 := by
  unfold set_passive_orders
  split_ifs <;> rfl

theorem set_passive_bids (e : Engine) (a : MarketOrder) (q : List MarketOrder)
    (h : a.side = SIDE.BUY) : (e.set_passive_orders a q).bids = e.bids := by
  simp [set_passive_orders, h]

theorem set_passive_asks (e : Engine) (a : MarketOrder) (q : List MarketOrder)
    (h : a.side = SIDE.SELL) : (e.set_passive_orders a q).asks = e.asks := by
  simp [set_passive_orders, h]

/-- The aggressor leaves the loop with its fields unchanged but for the quantity, which
is the one it came with less the quantities matched in the loop. -/
theorem match_loop_aggressive_order (V : Match → Option SIDE) (ps : List MarketOrder) :
    ∀ (a : MarketOrder),
      (match_loop V ps a [] []).aggressive_order =
        { a with quantity := a.quantity -
            ((match_loop V ps a [] []).matched.map Match.quantity).sum } := by
  induction ps with
  | nil => intro a; simp [match_loop]
  | cons p rest ih =>
    intro a
    simp only [match_loop]
    by_cases hc : p.can_match a = true
    · simp only [hc, if_true]
      cases hv : V (toMatch p a) with
      | some s =>
        simp only []
        by_cases hs : s = a.side
        · simp [hs]
        · simp only [hs, if_false]
          exact ih a
      | none =>
        simp only []
        by_cases hp : p.quantity - min p.quantity a.quantity > 0
        · simp [hp, toMatch]
        · simp only [hp, if_false]
          by_cases hq : a.quantity - min p.quantity a.quantity ≤ 0
          · simp [hq, toMatch]
          · simp only [hq, if_false]
            rw [match_loop_acc, ih]
            simp [toMatch, sub_sub]
    · simp [hc]

/-- Leaving the loop because `validateMatch` named the side of the aggressor: the
passive queue is a final part of the queue the loop began with, its top is the order
whose candidate failed, and one update has been emitted for each match. -/
theorem match_loop_aggressive_failure (V : Match → Option SIDE) (ps : List MarketOrder) :
    ∀ (a : MarketOrder) (ms : List Match) (us : List ObUpdate),
      (match_loop V ps a ms us).exit = ExitPath.aggressive_failure →
      ∃ p rest, (match_loop V ps a ms us).passive_orders = p :: rest ∧
        (p :: rest) <:+ ps ∧
        p.can_match (match_loop V ps a ms us).aggressive_order = true ∧
        V (toMatch p (match_loop V ps a ms us).aggressive_order) = some a.side ∧
        (match_loop V ps a ms us).ob_updates.length + ms.length
          = (match_loop V ps a ms us).matched.length + us.length := by
  induction ps with
  | nil => intro a ms us h; simp [match_loop] at h
  | cons p rest ih =>
    intro a ms us
    simp only [match_loop]
    by_cases hc : p.can_match a = true
    · simp only [hc, if_true]
      cases hv : V (toMatch p a) with
      | some s =>
        simp only []
        by_cases hs : s = a.side
        · intro _
          simp only [hs, if_true]
          exact ⟨p, rest, rfl, List.suffix_refl _, hc, by rw [hv, hs], by omega⟩
        · simp only [hs, if_false]
          intro h
          obtain ⟨q, rest1, h1, h2, h3⟩ := ih a ms us h
          exact ⟨q, rest1, h1, h2.trans (List.suffix_cons _ _), h3⟩
      | none =>
        simp only []
        by_cases hp : p.quantity - min p.quantity a.quantity > 0
        · simp [hp]
        · simp only [hp, if_false]
          by_cases hq : a.quantity - min p.quantity a.quantity ≤ 0
          · simp [hq]
          · simp only [hq, if_false]
            intro h
            obtain ⟨q, rest1, h1, h2, h3, h4, h5⟩ := ih _ _ _ h
            refine ⟨q, rest1, h1, h2.trans (List.suffix_cons _ _), h3, h4, ?_⟩
            simp only [List.length_append, List.length_singleton] at h5
            omega
    · simp [hc]

/-- The loop leaves only orders of positive quantity on the passive queue when it began
with such a queue. -/
theorem match_loop_positive (V : Match → Option SIDE) (ps : List MarketOrder) :
    ∀ (a : MarketOrder) (ms : List Match) (us : List ObUpdate),
      (∀ o ∈ ps, 0 < o.quantity) →
      ∀ o ∈ (match_loop V ps a ms us).passive_orders, 0 < o.quantity := by
  induction ps with
  | nil => intro a ms us _ o ho; simp [match_loop] at ho
  | cons p rest ih =>
    intro a ms us hps
    have hrest : ∀ o ∈ rest, 0 < o.quantity := fun o ho => hps o (List.mem_cons_of_mem _ ho)
    simp only [match_loop]
    by_cases hc : p.can_match a = true
    · simp only [hc, if_true]
      cases hv : V (toMatch p a) with
      | some s =>
        simp only []
        by_cases hs : s = a.side
        · simpa [hs] using hps
        · simp only [hs, if_false]
          exact ih a ms us hrest
      | none =>
        simp only []
        by_cases hp : p.quantity - min p.quantity a.quantity > 0
        · simp only [hp, if_true]
          intro o ho
          rcases (mem_push _ _ _).1 ho with h1 | h1
          · rw [h1]; exact hp
          · exact hrest o h1
        · simp only [hp, if_false]
          by_cases hq : a.quantity - min p.quantity a.quantity ≤ 0
          · simpa [hq] using hrest
          · simp only [hq, if_false]
            exact ih _ _ _ hrest
    · simpa [hc] using hps

/-- When `validateMatch` names the other side, the loop goes on as if the top of the
passive queue had never been there: same aggressor, same matches, same updates. -/
theorem match_loop_passive_failure (V : Match → Option SIDE) (p : MarketOrder)
    (rest : List MarketOrder) (a : MarketOrder) (ms : List Match) (us : List ObUpdate)
    (s : SIDE) (hc : p.can_match a = true) (hv : V (toMatch p a) = some s)
    (hs : s ≠ a.side) :
    match_loop V (p :: rest) a ms us = match_loop V rest a ms us := by
  simp [match_loop, hc, hv, hs]

/-- The loop does nothing on a queue that is empty or whose top cannot match. -/
theorem match_loop_no_cross (V : Match → Option SIDE) (ps : List MarketOrder)
    (a : MarketOrder) (ms : List Match) (us : List ObUpdate)
    (h : (match ps with
          | [] => true
          | top :: _ => !top.can_match a) = true) :
    match_loop V ps a ms us = ⟨ps, a, ms, us, ExitPath.loop_end⟩ := by
  cases ps with
  | nil => simp [match_loop]
  | cons p rest =>
    have hc : ¬ p.can_match a = true := by simpa using h
    simp [match_loop, hc]

theorem positive_passive (e : Engine) (a : MarketOrder) (h : e.positive) :
    ∀ o ∈ e.passive_orders a, 0 < o.quantity := by
  unfold passive_orders
  split_ifs
  · exact h.1
  · exact h.2

theorem positive_set_passive (e : Engine) (a : MarketOrder) (q : List MarketOrder)
    (h : e.positive) (hq : ∀ o ∈ q, 0 < o.quantity) :
    (e.set_passive_orders a q).positive := by
  unfold set_passive_orders
  split_ifs
  · exact ⟨hq, h.2⟩
  · exact ⟨h.1, hq⟩

theorem positive_add_order (e : Engine) (a : MarketOrder) (h : e.positive)
    (hq : 0 < a.quantity) : (e.add_order a).positive := by
  unfold add_order
  split_ifs
  · refine ⟨fun o ho => ?_, h.2⟩
    rcases (mem_push _ _ _).1 ho with h1 | h1
    · rw [h1]; exact hq
    · exact h.1 o h1
  · refine ⟨h.1, fun o ho => ?_⟩
    rcases (mem_push _ _ _).1 ho with h1 | h1
    · rw [h1]; exact hq
    · exact h.2 o h1

/-- When the top of the passive queue can match and its candidate validates, the first
match of the loop is that candidate. -/
theorem match_loop_first_match (V : Match → Option SIDE) (p : MarketOrder)
    (rest : List MarketOrder) (a : MarketOrder) (hc : p.can_match a = true)
    (hv : V (toMatch p a) = none) :
    ∃ later, (match_loop V (p :: rest) a [] []).matched = toMatch p a :: later := by
  simp only [match_loop, hc, hv, if_true]
  split_ifs
  · exact ⟨[], rfl⟩
  · exact ⟨[], rfl⟩
  · rw [match_loop_acc]
    exact ⟨_, rfl⟩

end Engine

/-! ## The ordering of the queue -/

theorem before_irrefl (a : MarketOrder) : a.before a = false := by
  cases hs : a.side <;> simp [MarketOrder.before, hs]

theorem before_asymm (a b : MarketOrder) (hs : a.side = b.side) (h : a.before b = true) :
    b.before a = false := by
  cases hb : b.side <;> rw [hb] at hs <;>
    simp only [MarketOrder.before, hs, hb, Bool.or_eq_true, Bool.and_eq_true,
      decide_eq_true_eq, Bool.or_eq_false_iff, Bool.and_eq_false_imp,
      decide_eq_false_iff_not, not_lt] at h ⊢
  · rcases h with h | ⟨h1, h2⟩
    · exact ⟨le_of_lt h, fun h3 => absurd h3.symm (ne_of_gt h)⟩
    · exact ⟨le_of_eq h1.symm, fun _ => le_of_lt h2⟩
  · rcases h with h | ⟨h1, h2⟩
    · exact ⟨le_of_lt h, fun h3 => absurd h3 (ne_of_gt h)⟩
    · exact ⟨le_of_eq h1, fun _ => le_of_lt h2⟩

theorem before_trans (a b c : MarketOrder) (hs : a.side = b.side)
    (h1 : a.before b = true) (h2 : b.before c = true) : a.before c = true := by
  cases hb : b.side <;> rw [hb] at hs <;>
    simp only [MarketOrder.before, hs, hb, Bool.or_eq_true, Bool.and_eq_true,
      decide_eq_true_eq] at h1 h2 ⊢
  · rcases h1 with h1 | ⟨h1, h1s⟩ <;> rcases h2 with h2 | ⟨h2, h2s⟩
    · exact Or.inl (lt_trans h2 h1)
    · exact Or.inl (h2 ▸ h1)
    · exact Or.inl (h1 ▸ h2)
    · exact Or.inr ⟨h1.trans h2, lt_trans h1s h2s⟩
  · rcases h1 with h1 | ⟨h1, h1s⟩ <;> rcases h2 with h2 | ⟨h2, h2s⟩
    · exact Or.inl (lt_trans h1 h2)
    · exact Or.inl (h2 ▸ h1)
    · exact Or.inl (h1 ▸ h2)
    · exact Or.inr ⟨h1.trans h2, lt_trans h1s h2s⟩

theorem push_perm (l : List MarketOrder) (x : MarketOrder) : (push l x).Perm (x :: l) := by
  induction l with
  | nil => simp [push]
  | cons y rest ih =>
    unfold push
    split_ifs
    · exact List.Perm.refl _
    · exact (List.Perm.cons y ih).trans (List.Perm.swap x y rest)

theorem push_sorted (l : List MarketOrder) (x : MarketOrder)
    (hside : ∀ o ∈ l, o.side = x.side) (hl : sorted l) : sorted (push l x) := by
  induction l with
  | nil => simp [push, sorted]
  | cons y rest ih =>
    have hy : y.side = x.side := hside y (List.mem_cons_self _ _)
    have hrest : ∀ o ∈ rest, o.side = x.side := fun o ho =>
      hside o (List.mem_cons_of_mem _ ho)
    unfold sorted at hl ih ⊢
    rw [List.pairwise_cons] at hl
    unfold push
    split_ifs with hb
    · rw [List.pairwise_cons, List.pairwise_cons]
      refine ⟨fun z hz => ?_, hl⟩
      rcases List.mem_cons.1 hz with h1 | h1
      · rw [h1]; exact before_asymm x y hy.symm hb
      · by_contra hne
        have hzx : z.before x = true := by simpa using hne
        have hzy := before_trans z x y (hrest z h1) hzx hb
        rw [hl.1 z h1] at hzy
        cases hzy
    · rw [List.pairwise_cons]
      refine ⟨fun z hz => ?_, ih hrest hl.2⟩
      rcases (mem_push _ _ _).1 hz with h1 | h1
      · rw [h1]; simpa using hb
      · exact hl.1 z h1

theorem foldl_push_perm (arrivals : List MarketOrder) :
    ∀ q : List MarketOrder, (arrivals.foldl push q).Perm (arrivals ++ q) := by
  induction arrivals with
  | nil => intro q; exact List.Perm.refl _
  | cons x rest ih =>
    intro q
    simp only [List.foldl_cons, List.cons_append]
    exact (ih (push q x)).trans
      ((List.Perm.append_left rest (push_perm q x)).trans List.perm_middle)

theorem foldl_push_sorted (s : SIDE) (arrivals : List MarketOrder)
    (harr : ∀ o ∈ arrivals, o.side = s) :
    ∀ q : List MarketOrder, (∀ o ∈ q, o.side = s) → sorted q →
      sorted (arrivals.foldl push q) := by
  induction arrivals with
  | nil => intro q _ hq; exact hq
  | cons x rest ih =>
    intro q hqs hq
    have hx : x.side = s := harr x (List.mem_cons_self _ _)
    simp only [List.foldl_cons]
    apply ih (fun o ho => harr o (List.mem_cons_of_mem _ ho))
    · intro o ho
      rcases (mem_push _ _ _).1 ho with h1 | h1
      · rw [h1]; exact hx
      · exact hqs o h1
    · exact push_sorted q x (fun o ho => (hqs o ho).trans hx.symm) hq

namespace Engine

/-- The loop keeps the passive queue on one side and in priority order. -/
theorem match_loop_sorted (V : Match → Option SIDE) (s : SIDE) (ps : List MarketOrder) :
    ∀ (a : MarketOrder) (ms : List Match) (us : List ObUpdate),
      (∀ o ∈ ps, o.side = s) → sorted ps →
      (∀ o ∈ (match_loop V ps a ms us).passive_orders, o.side = s) ∧
      sorted (match_loop V ps a ms us).passive_orders := by
  induction ps with
  | nil => intro a ms us h1 h2; simpa [match_loop] using h2
  | cons p rest ih =>
    intro a ms us hside hsorted
    have hrest : ∀ o ∈ rest, o.side = s := fun o ho => hside o (List.mem_cons_of_mem _ ho)
    have hp : p.side = s := hside p (List.mem_cons_self _ _)
    have hsrest : sorted rest := (List.pairwise_cons.1 hsorted).2
    simp only [match_loop]
    by_cases hc : p.can_match a = true
    · simp only [hc, if_true]
      cases hv : V (toMatch p a) with
      | some f =>
        simp only []
        by_cases hs : f = a.side
        · simp only [hs, if_true]
          exact ⟨hside, hsorted⟩
        · simp only [hs, if_false]
          exact ih a ms us hrest hsrest
      | none =>
        simp only []
        by_cases hq : p.quantity - min p.quantity a.quantity > 0
        · simp only [hq, if_true]
          refine ⟨fun o ho => ?_, push_sorted rest _ (fun o ho => (hrest o ho).trans hp.symm)
            hsrest⟩
          rcases (mem_push _ _ _).1 ho with h1 | h1
          · rw [h1]; exact hp
          · exact hrest o h1
        · simp only [hq, if_false]
          by_cases hq2 : a.quantity - min p.quantity a.quantity ≤ 0
          · simp only [hq2, if_true]
            exact ⟨hrest, hsrest⟩
          · simp only [hq2, if_false]
            exact ih _ _ _ hrest hsrest
    · simp only [hc, if_false]
      exact ⟨hside, hsorted⟩

theorem wellformed_add_order (e : Engine) (a : MarketOrder) (h : e.wellformed) :
    (e.add_order a).wellformed := by
  obtain ⟨h1, h2, h3, h4⟩ := h
  unfold add_order
  split_ifs with hs
  · refine ⟨fun o ho => ?_, h2, push_sorted _ _ (fun o ho => (h1 o ho).trans hs.symm) h3, h4⟩
    rcases (mem_push _ _ _).1 ho with h5 | h5
    · rw [h5]; exact hs
    · exact h1 o h5
  · have hs2 : a.side = SIDE.SELL := by
      cases h5 : a.side
      · exact absurd h5 hs
      · rfl
    refine ⟨h1, fun o ho => ?_, h3, push_sorted _ _ (fun o ho => (h2 o ho).trans hs2.symm) h4⟩
    rcases (mem_push _ _ _).1 ho with h5 | h5
    · rw [h5]; exact hs2
    · exact h2 o h5

/-- A call of `match_order` keeps the book well formed. -/
theorem match_order_wellformed (V : ClientManager → Match → Option SIDE) (e : Engine)
    (a : MarketOrder) (mgr : ClientManager) (h : e.wellformed) :
    (match_order V e a mgr).engine.wellformed := by
  have hset : (e.set_passive_orders a (match_loop (V (manager_after_check a mgr))
      (e.passive_orders a) a [] []).passive_orders).wellformed := by
    obtain ⟨h1, h2, h3, h4⟩ := h
    unfold set_passive_orders passive_orders
    split_ifs with hs
    · have hl := match_loop_sorted (V (manager_after_check a mgr)) SIDE.BUY e.bids a [] []
        h1 h3
      exact ⟨hl.1, h2, hl.2, h4⟩
    · have hl := match_loop_sorted (V (manager_after_check a mgr)) SIDE.SELL e.asks a [] []
        h2 h4
      exact ⟨h1, hl.1, h3, hl.2⟩
  unfold match_order
  simp only []
  split_ifs
  · exact h
  · exact wellformed_add_order e a h
  · exact wellformed_add_order _ _ hset
  · exact hset

/-- In a queue in priority order, an order that is ahead of all the others is on top. -/
theorem sorted_top (q : List MarketOrder) (o1 : MarketOrder) (others : List MarketOrder)
    (hsorted : sorted q) (hperm : q.Perm (o1 :: others))
    (hbest : ∀ o ∈ others, o1.before o = true) :
    ∃ rest, q = o1 :: rest ∧ rest.Perm others := by
  cases q with
  | nil => exact absurd hperm.symm.eq_nil (List.cons_ne_nil _ _)
  | cons h rest =>
    have hh : h = o1 := by
      have hmem : h ∈ o1 :: others := hperm.subset (List.mem_cons_self _ _)
      rcases List.mem_cons.1 hmem with h1 | h1
      · exact h1
      · exfalso
        have hb := hbest h h1
        have ho1 : o1 ∈ h :: rest := hperm.symm.subset (List.mem_cons_self _ _)
        rcases List.mem_cons.1 ho1 with h2 | h2
        · rw [h2, before_irrefl] at hb; cases hb
        · rw [(List.pairwise_cons.1 hsorted).1 o1 h2] at hb
          cases hb
    subst hh
    exact ⟨rest, rfl, (List.perm_cons h).1 hperm⟩

/-- An order that is ahead of every order of the queue is pushed on top of it. -/
theorem push_top (rest : List MarketOrder) (o : MarketOrder)
    (h : ∀ x ∈ rest, o.before x = true) : push rest o = o :: rest := by
  cases rest with
  | nil => rfl
  | cons x tail => simp [push, h x (List.mem_cons_self _ _)]

theorem wellformed_empty : Engine.wellformed ⟨[], []⟩ := by
  simp [wellformed, sorted]

theorem wellformed_passive (e : Engine) (a : MarketOrder) (h : e.wellformed) :
    sorted (e.passive_orders a) := by
  unfold passive_orders
  split_ifs
  · exact h.2.2.1
  · exact h.2.2.2

end Engine

end nutc

/-! ## The claims -/

open nutc nutc.Engine

/-! ### C1: a rejected aggressor -/

/-- A rejected aggressor leaves the book as it is and emits nothing. -/
theorem match_order_rejected (V : ClientManager → Match → Option SIDE) (e : Engine)
    (a : MarketOrder) (mgr : ClientManager) (hside : a.side = SIDE.BUY)
    (hcap : a.price * a.quantity > (mgr.getCapital a.client_uid).1) :
    (match_order V e a mgr).matched = [] ∧ (match_order V e a mgr).ob_updates = [] ∧
    (match_order V e a mgr).engine = e := by
  simp [match_order, cannot_afford, hside, hcap]

/-- A rejected aggressor whose client is registered leaves the client map as it is. -/
theorem match_order_rejected_registered (V : ClientManager → Match → Option SIDE)
    (e : Engine) (a : MarketOrder) (mgr : ClientManager)
    (hreg : (mgr.find a.client_uid).isSome) :
    (match_order V e a mgr).manager = mgr := by
  rw [match_order_manager]
  unfold manager_after_check
  split_ifs
  · exact ClientManager.index_registered mgr _ hreg
  · rfl

/-- C1, at the input that breaks it: client `B` rests a sell order, and a buy order
arrives from `ghost`, an id the client map does not hold. `getCapital` reads
`clients["ghost"]`, whose capital `0` is below the order's value `50`, so the order is
rejected with no match and no update and the book is unchanged; but the read has
inserted a value-initialised client under `ghost`, so the client map is not the one
of before the call. -/
theorem match_order_rejected_unregistered (V : ClientManager → Match → Option SIDE) :
    ((10 : ℚ) * 5 >
        (ClientManager.getCapital ⟨[("B", ⟨"B", true, 1000⟩)]⟩ "ghost").1) ∧
    (match_order V ⟨[], [⟨"B", SIDE.SELL, "X", 5, 10, 1⟩]⟩
        ⟨"ghost", SIDE.BUY, "X", 5, 10, 2⟩ ⟨[("B", ⟨"B", true, 1000⟩)]⟩).matched = [] ∧
    (match_order V ⟨[], [⟨"B", SIDE.SELL, "X", 5, 10, 1⟩]⟩
        ⟨"ghost", SIDE.BUY, "X", 5, 10, 2⟩ ⟨[("B", ⟨"B", true, 1000⟩)]⟩).ob_updates = [] ∧
    (match_order V ⟨[], [⟨"B", SIDE.SELL, "X", 5, 10, 1⟩]⟩
        ⟨"ghost", SIDE.BUY, "X", 5, 10, 2⟩ ⟨[("B", ⟨"B", true, 1000⟩)]⟩).engine
      = ⟨[], [⟨"B", SIDE.SELL, "X", 5, 10, 1⟩]⟩ ∧
    (match_order V ⟨[], [⟨"B", SIDE.SELL, "X", 5, 10, 1⟩]⟩
        ⟨"ghost", SIDE.BUY, "X", 5, 10, 2⟩ ⟨[("B", ⟨"B", true, 1000⟩)]⟩).manager
      = ⟨[("B", ⟨"B", true, 1000⟩), ("ghost", ⟨"", false, 0⟩)]⟩ ∧
    (match_order V ⟨[], [⟨"B", SIDE.SELL, "X", 5, 10, 1⟩]⟩
        ⟨"ghost", SIDE.BUY, "X", 5, 10, 2⟩ ⟨[("B", ⟨"B", true, 1000⟩)]⟩).manager
      ≠ ⟨[("B", ⟨"B", true, 1000⟩)]⟩ := by
  simp [match_order, manager_after_check, cannot_afford, ClientManager.getCapital,
    ClientManager.index, ClientManager.find, lookup, assign, Client.value_init]

/-! ### C2: buyer and seller of a match -/

/-- In every match of a call `seller_uid` is the client of the aggressor and
`buyer_uid` the client of a resting order, whatever the side of the aggressor. -/
theorem match_order_parties (V : ClientManager → Match → Option SIDE) (e : Engine)
    (a : MarketOrder) (mgr : ClientManager) (m : Match)
    (h : m ∈ (match_order V e a mgr).matched) :
    m.seller_uid = a.client_uid ∧ m.side = a.side ∧
    ∃ p ∈ e.passive_orders a, m.buyer_uid = p.client_uid := by
  obtain ⟨pre, post, hm⟩ := List.append_of_mem h
  obtain ⟨p, hp, rfl⟩ := match_order_trace V e a mgr pre m post hm
  exact ⟨rfl, rfl, p, hp, rfl⟩

/-- C2, at the input that breaks it: `B` rests a sell order of 5 at 10 and `A`, who can
pay, arrives with a buy order of 5 at 10. The one match names `B`, the seller, as
`buyer_uid` and `A`, the buyer, as `seller_uid`. -/
theorem match_order_buy_aggressor_parties :
    (match_order validate_all ⟨[], [⟨"B", SIDE.SELL, "X", 5, 10, 1⟩]⟩
      ⟨"A", SIDE.BUY, "X", 5, 10, 2⟩
      ⟨[("A", ⟨"A", true, 1000⟩), ("B", ⟨"B", true, 1000⟩)]⟩).matched
      = [⟨"X", "B", "A", SIDE.BUY, 10, 5⟩] := by
  simp [match_order, manager_after_check, cannot_afford, no_cross, passive_orders,
    match_loop, toMatch, MarketOrder.can_match, ClientManager.getCapital,
    ClientManager.index, ClientManager.find, lookup, validate_all]
  norm_num

/-! ### C3: the ledger after a call with matches -/

/-- C3 as stated fails: `A` rests a buy order of 5 at 10 and `B` sells 5 at 10. The call
returns one match with buyer `A` and seller `B`, and afterwards `A` still has its 1000
(not 950) and `B` still has its 1000 (not 1050). -/
theorem match_order_no_transfer_example :
    (match_order validate_all ⟨[⟨"A", SIDE.BUY, "X", 5, 10, 1⟩], []⟩
      ⟨"B", SIDE.SELL, "X", 5, 10, 2⟩
      ⟨[("A", ⟨"A", true, 1000⟩), ("B", ⟨"B", true, 1000⟩)]⟩).matched
      = [⟨"X", "A", "B", SIDE.SELL, 10, 5⟩] ∧
    ¬ (((match_order validate_all ⟨[⟨"A", SIDE.BUY, "X", 5, 10, 1⟩], []⟩
      ⟨"B", SIDE.SELL, "X", 5, 10, 2⟩
      ⟨[("A", ⟨"A", true, 1000⟩), ("B", ⟨"B", true, 1000⟩)]⟩).manager.getCapital "A").1
      = 1000 - 10 * 5) ∧
    ¬ (((match_order validate_all ⟨[⟨"A", SIDE.BUY, "X", 5, 10, 1⟩], []⟩
      ⟨"B", SIDE.SELL, "X", 5, 10, 2⟩
      ⟨[("A", ⟨"A", true, 1000⟩), ("B", ⟨"B", true, 1000⟩)]⟩).manager.getCapital "B").1
      = 1000 + 10 * 5) := by
  refine ⟨?_, ?_, ?_⟩
  · simp [match_order, manager_after_check, cannot_afford, no_cross, passive_orders,
      match_loop, toMatch, MarketOrder.can_match, validate_all]
  · rw [match_order_manager]
    simp [manager_after_check, ClientManager.getCapital, ClientManager.index,
      ClientManager.find, lookup]
    norm_num
  · rw [match_order_manager]
    simp [manager_after_check, ClientManager.getCapital, ClientManager.index,
      ClientManager.find, lookup]

/-- C3, amended: `match_order` moves no capital. After the call, whether or not it
returned matches, every client id has the capital it had before the call and the total
capital is the same; the trades it returns are not applied to the ledger. -/
theorem match_order_capital_unchanged (V : ClientManager → Match → Option SIDE)
    (e : Engine) (a : MarketOrder) (mgr : ClientManager) :
    (∀ uid, ((match_order V e a mgr).manager.getCapital uid).1 = (mgr.getCapital uid).1) ∧
    (match_order V e a mgr).manager.total_capital = mgr.total_capital := by
  rw [match_order_manager]
  exact ⟨manager_after_check_capital a mgr, manager_after_check_total a mgr⟩

/-! ### C7: price and quantity of a match -/

/-- C7: every match `m` of a call was formed against an order `p` that rested on the
passive side before the call; its price is the price of `p` (so it differs from the
price of the aggressor whenever the two differ) and its quantity is the minimum of the
quantity of `p` and what the aggressor had left, that is its quantity less the
quantities of the matches returned before `m`. -/
theorem match_price_is_passive_price (V : ClientManager → Match → Option SIDE)
    (e : Engine) (a : MarketOrder) (mgr : ClientManager) (pre : List Match) (m : Match)
    (post : List Match) (h : (match_order V e a mgr).matched = pre ++ m :: post) :
    ∃ p ∈ e.passive_orders a,
      m.price = p.price ∧
      (p.price ≠ a.price → m.price ≠ a.price) ∧
      m.quantity = min p.quantity (a.quantity - (pre.map Match.quantity).sum) := by
  obtain ⟨p, hp, rfl⟩ := match_order_trace V e a mgr pre m post h
  exact ⟨p, hp, rfl, fun hne => hne, rfl⟩

/-- Witness of C7: a sell order of 5 at 10 rests and a buy order of 3 at 12 arrives; the
one match is at 10, not at 12, for 3. -/
theorem match_price_is_passive_price_witness :
    (match_order validate_all ⟨[], [⟨"B", SIDE.SELL, "X", 5, 10, 1⟩]⟩
      ⟨"A", SIDE.BUY, "X", 3, 12, 2⟩ ⟨[("A", ⟨"A", true, 1000⟩)]⟩).matched
      = [] ++ (⟨"X", "B", "A", SIDE.BUY, 10, 3⟩ : Match) :: [] ∧
    ∃ p ∈ Engine.passive_orders ⟨[], [⟨"B", SIDE.SELL, "X", 5, 10, 1⟩]⟩
        ⟨"A", SIDE.BUY, "X", 3, 12, 2⟩,
      (⟨"X", "B", "A", SIDE.BUY, 10, 3⟩ : Match).price = p.price ∧
      (p.price ≠ (12 : ℚ) → (⟨"X", "B", "A", SIDE.BUY, 10, 3⟩ : Match).price ≠ (12 : ℚ)) ∧
      (⟨"X", "B", "A", SIDE.BUY, 10, 3⟩ : Match).quantity
        = min p.quantity ((3 : ℚ) - (([] : List Match).map Match.quantity).sum) := by
  have h : (match_order validate_all ⟨[], [⟨"B", SIDE.SELL, "X", 5, 10, 1⟩]⟩
      ⟨"A", SIDE.BUY, "X", 3, 12, 2⟩ ⟨[("A", ⟨"A", true, 1000⟩)]⟩).matched
      = [] ++ (⟨"X", "B", "A", SIDE.BUY, 10, 3⟩ : Match) :: [] := by
    simp [match_order, manager_after_check, cannot_afford, no_cross, passive_orders,
      match_loop, toMatch, MarketOrder.can_match, ClientManager.getCapital,
      ClientManager.index, ClientManager.find, lookup, validate_all]
    norm_num
  exact ⟨h, match_price_is_passive_price validate_all _ _ _ [] _ [] h⟩

/-! ### C4: `validateMatch` names the side of the aggressor -/

/-- C4 as stated fails: `A` rests a buy order of 5 at 10, `B` arrives selling 5 at 10, and
the ledger names the selling side as failing. The call returns no match and no update
and does not book the aggressor, but the resting order of `A` is still on the book:
`top()` only read it, it was never popped. -/
theorem aggressive_failure_keeps_passive_example :
    (match_order (validate_fail SIDE.SELL) ⟨[⟨"A", SIDE.BUY, "X", 5, 10, 1⟩], []⟩
      ⟨"B", SIDE.SELL, "X", 5, 10, 2⟩ ⟨[]⟩).exit = ExitPath.aggressive_failure ∧
    (match_order (validate_fail SIDE.SELL) ⟨[⟨"A", SIDE.BUY, "X", 5, 10, 1⟩], []⟩
      ⟨"B", SIDE.SELL, "X", 5, 10, 2⟩ ⟨[]⟩).matched = [] ∧
    (match_order (validate_fail SIDE.SELL) ⟨[⟨"A", SIDE.BUY, "X", 5, 10, 1⟩], []⟩
      ⟨"B", SIDE.SELL, "X", 5, 10, 2⟩ ⟨[]⟩).ob_updates = [] ∧
    (⟨"A", SIDE.BUY, "X", 5, 10, 1⟩ : MarketOrder) ∈
      (match_order (validate_fail SIDE.SELL) ⟨[⟨"A", SIDE.BUY, "X", 5, 10, 1⟩], []⟩
        ⟨"B", SIDE.SELL, "X", 5, 10, 2⟩ ⟨[]⟩).engine.bids := by
  simp [match_order, manager_after_check, cannot_afford, no_cross, passive_orders,
    set_passive_orders, match_loop, toMatch, MarketOrder.can_match, validate_fail]

/-- C4, amended: when a call leaves because `validateMatch` named the side of the
aggressor for the candidate against the top `p` of the passive side, it returns the
matches and updates emitted so far (one update per match, none for the failed
candidate), the aggressor is not booked (its own side of the book is as before the
call), and `p` is still on the book, on top of the passive side, which is a final part
of the passive side of before the call. -/
theorem aggressive_failure_keeps_passive (V : ClientManager → Match → Option SIDE)
    (e : Engine) (a : MarketOrder) (mgr : ClientManager)
    (h : (match_order V e a mgr).exit = ExitPath.aggressive_failure) :
    (a.side = SIDE.BUY → (match_order V e a mgr).engine.bids = e.bids) ∧
    (a.side = SIDE.SELL → (match_order V e a mgr).engine.asks = e.asks) ∧
    (match_order V e a mgr).ob_updates.length = (match_order V e a mgr).matched.length ∧
    ∃ p rest, (match_order V e a mgr).engine.passive_orders a = p :: rest ∧
      (p :: rest) <:+ e.passive_orders a ∧
      p.can_match { a with quantity := a.quantity -
        ((match_order V e a mgr).matched.map Match.quantity).sum } = true ∧
      V (match_order V e a mgr).manager (toMatch p { a with quantity := a.quantity -
        ((match_order V e a mgr).matched.map Match.quantity).sum }) = some a.side := by
  rw [match_order_manager]
  unfold match_order at h ⊢
  simp only [] at h ⊢
  split_ifs at h ⊢ with h1 h2 h3
  · simp only [ne_eq, not_false_eq_true] at h
    obtain ⟨p, rest, hp1, hp2, hp3, hp4, hp5⟩ :=
      match_loop_aggressive_failure _ _ _ _ _ h
    rw [match_loop_aggressive_order] at hp3 hp4
    refine ⟨fun hs => set_passive_bids _ _ _ hs, fun hs => set_passive_asks _ _ _ hs,
      by simpa using hp5, p, rest, ?_, hp2, hp3, hp4⟩
    rw [passive_set_passive, hp1]

/-- Witness of the amended C4, at the input of the counterexample. -/
theorem aggressive_failure_keeps_passive_witness :
    (match_order (validate_fail SIDE.SELL) ⟨[⟨"A", SIDE.BUY, "X", 5, 10, 1⟩], []⟩
      ⟨"B", SIDE.SELL, "X", 5, 10, 2⟩ ⟨[]⟩).exit = ExitPath.aggressive_failure ∧
    ((match_order (validate_fail SIDE.SELL) ⟨[⟨"A", SIDE.BUY, "X", 5, 10, 1⟩], []⟩
      ⟨"B", SIDE.SELL, "X", 5, 10, 2⟩ ⟨[]⟩).ob_updates.length
      = (match_order (validate_fail SIDE.SELL) ⟨[⟨"A", SIDE.BUY, "X", 5, 10, 1⟩], []⟩
      ⟨"B", SIDE.SELL, "X", 5, 10, 2⟩ ⟨[]⟩).matched.length) := by
  have h : (match_order (validate_fail SIDE.SELL) ⟨[⟨"A", SIDE.BUY, "X", 5, 10, 1⟩], []⟩
      ⟨"B", SIDE.SELL, "X", 5, 10, 2⟩ ⟨[]⟩).exit = ExitPath.aggressive_failure := by
    simp [match_order, manager_after_check, cannot_afford, no_cross, passive_orders,
      set_passive_orders, match_loop, toMatch, MarketOrder.can_match, validate_fail]
  exact ⟨h, (aggressive_failure_keeps_passive _ _ _ _ h).2.2.1⟩

/-! ### C5: partial fill with a larger aggressor -/

/-- C5 as stated fails: `A` rests a buy order of 3 at 10 and `B` sells 5 at 10. The
updates are a zero update on the BUY side, the side of the resting order, and then the
booking of the remaining 2 on the SELL side; they are not the two SELL updates of the
claim. -/
theorem partial_fill_updates_example :
    (match_order validate_all ⟨[⟨"A", SIDE.BUY, "X", 3, 10, 1⟩], []⟩
      ⟨"B", SIDE.SELL, "X", 5, 10, 2⟩ ⟨[]⟩).ob_updates
      = [⟨"X", SIDE.BUY, 10, 0⟩, ⟨"X", SIDE.SELL, 10, 2⟩] ∧
    (match_order validate_all ⟨[⟨"A", SIDE.BUY, "X", 3, 10, 1⟩], []⟩
      ⟨"B", SIDE.SELL, "X", 5, 10, 2⟩ ⟨[]⟩).ob_updates
      ≠ [⟨"X", SIDE.SELL, 10, 0⟩, ⟨"X", SIDE.SELL, 10, 5 - 3⟩] := by
  have h : (match_order validate_all ⟨[⟨"A", SIDE.BUY, "X", 3, 10, 1⟩], []⟩
      ⟨"B", SIDE.SELL, "X", 5, 10, 2⟩ ⟨[]⟩).ob_updates
      = [⟨"X", SIDE.BUY, 10, 0⟩, ⟨"X", SIDE.SELL, 10, 2⟩] := by
    simp [match_order, manager_after_check, cannot_afford, no_cross, passive_orders,
      set_passive_orders, match_loop, toMatch, create_ob_update, add_order, push,
      MarketOrder.can_match, validate_all]
    norm_num
  refine ⟨h, ?_⟩
  rw [h]
  simp

/-- C5, amended: on a book whose only resting order is a buy order `b` of positive
quantity, a sell order `a` at the same price with a larger quantity, whose match
validates, gives exactly one match (side SELL, the price, the quantity of `b`) and
exactly the updates `ObUpdate(BUY, price, 0)` and then
`ObUpdate(SELL, price, a.quantity - b.quantity)`; afterwards the bids are empty and the
asks hold only the aggressor, with the quantity `a.quantity - b.quantity`. -/
theorem partial_fill_larger_aggressor (V : ClientManager → Match → Option SIDE)
    (mgr : ClientManager) (b a : MarketOrder)
    (hb : b.side = SIDE.BUY) (ha : a.side = SIDE.SELL) (hprice : a.price = b.price)
    (_hq1 : 0 < b.quantity) (hq2 : b.quantity < a.quantity)
    (hv : V mgr (toMatch b a) = none) :
    (match_order V ⟨[b], []⟩ a mgr).matched
      = [⟨b.ticker, b.client_uid, a.client_uid, SIDE.SELL, b.price, b.quantity⟩] ∧
    (match_order V ⟨[b], []⟩ a mgr).ob_updates
      = [⟨b.ticker, SIDE.BUY, b.price, 0⟩,
         ⟨a.ticker, SIDE.SELL, b.price, a.quantity - b.quantity⟩] ∧
    (match_order V ⟨[b], []⟩ a mgr).engine
      = ⟨[], [{ a with quantity := a.quantity - b.quantity }]⟩ := by
  have hmin : min b.quantity a.quantity = b.quantity := min_eq_left (le_of_lt hq2)
  have hpos : 0 < a.quantity - b.quantity := sub_pos.2 hq2
  have hnot : ¬ a.quantity - b.quantity ≤ 0 := not_le.2 hpos
  have hcan : b.can_match a = true := by
    simp [MarketOrder.can_match, hb, ha, hprice]
  have hloop : match_loop (V mgr) [b] a [] []
      = ⟨[], { a with quantity := a.quantity - b.quantity }, [toMatch b a],
          [create_ob_update b 0], ExitPath.loop_end⟩ := by
    simp [match_loop, hcan, hv, hmin, hnot]
  have hno : no_cross ⟨[b], []⟩ a = false := by
    simp [no_cross, passive_orders, ha, hcan]
  have hpass : Engine.passive_orders ⟨[b], []⟩ a = [b] := by
    simp [passive_orders, ha]
  simp [match_order, manager_after_check, cannot_afford, hno, hpass, hloop, hpos, ha, hb,
    hprice, hmin, set_passive_orders, create_ob_update, add_order, push, toMatch]

/-- Witness of the amended C5, with the quantities 3 and 5 at the price 10. -/
theorem partial_fill_larger_aggressor_witness :
    (match_order validate_all ⟨[⟨"A", SIDE.BUY, "X", 3, 10, 1⟩], []⟩
      ⟨"B", SIDE.SELL, "X", 5, 10, 2⟩ ⟨[]⟩).matched
      = [⟨"X", "A", "B", SIDE.SELL, 10, 3⟩] ∧
    (match_order validate_all ⟨[⟨"A", SIDE.BUY, "X", 3, 10, 1⟩], []⟩
      ⟨"B", SIDE.SELL, "X", 5, 10, 2⟩ ⟨[]⟩).ob_updates
      = [⟨"X", SIDE.BUY, 10, 0⟩, ⟨"X", SIDE.SELL, 10, 5 - 3⟩] ∧
    (match_order validate_all ⟨[⟨"A", SIDE.BUY, "X", 3, 10, 1⟩], []⟩
      ⟨"B", SIDE.SELL, "X", 5, 10, 2⟩ ⟨[]⟩).engine
      = ⟨[], [⟨"B", SIDE.SELL, "X", 5 - 3, 10, 2⟩]⟩ :=
  partial_fill_larger_aggressor validate_all ⟨[]⟩ ⟨"A", SIDE.BUY, "X", 3, 10, 1⟩
    ⟨"B", SIDE.SELL, "X", 5, 10, 2⟩ rfl rfl rfl (by norm_num) (by norm_num) rfl

/-! ### C6: the simple cross -/

/-- C6 as stated fails: on the empty book `B` books a sell order of 5 at 10 (a sell order
is never refused), then `A`, whose capital is 55, arrives with a buy order of 5 at 12.
The orders are on opposite sides, can match, have the same quantity, and the match at
the resting price 10 validates (its value 50 is within 55); but the check before the
loop multiplies with the price 12 of the aggressor, 60 exceeds 55, and the second call
returns no match and no update and leaves the sell order on the book. -/
theorem simple_cross_unaffordable_example :
    cannot_afford ⟨"B", SIDE.SELL, "X", 5, 10, 1⟩
      ⟨[("A", ⟨"A", true, 55⟩), ("B", ⟨"B", true, 1000⟩)]⟩ = false ∧
    MarketOrder.can_match ⟨"B", SIDE.SELL, "X", 5, 10, 1⟩ ⟨"A", SIDE.BUY, "X", 5, 12, 2⟩
      = true ∧
    (toMatch ⟨"B", SIDE.SELL, "X", 5, 10, 1⟩ ⟨"A", SIDE.BUY, "X", 5, 12, 2⟩).price
      * (toMatch ⟨"B", SIDE.SELL, "X", 5, 10, 1⟩ ⟨"A", SIDE.BUY, "X", 5, 12, 2⟩).quantity
      ≤ 55 ∧
    (match_order validate_all
      (match_order validate_all ⟨[], []⟩ ⟨"B", SIDE.SELL, "X", 5, 10, 1⟩
        ⟨[("A", ⟨"A", true, 55⟩), ("B", ⟨"B", true, 1000⟩)]⟩).engine
      ⟨"A", SIDE.BUY, "X", 5, 12, 2⟩
      (match_order validate_all ⟨[], []⟩ ⟨"B", SIDE.SELL, "X", 5, 10, 1⟩
        ⟨[("A", ⟨"A", true, 55⟩), ("B", ⟨"B", true, 1000⟩)]⟩).manager).matched = [] ∧
    (match_order validate_all
      (match_order validate_all ⟨[], []⟩ ⟨"B", SIDE.SELL, "X", 5, 10, 1⟩
        ⟨[("A", ⟨"A", true, 55⟩), ("B", ⟨"B", true, 1000⟩)]⟩).engine
      ⟨"A", SIDE.BUY, "X", 5, 12, 2⟩
      (match_order validate_all ⟨[], []⟩ ⟨"B", SIDE.SELL, "X", 5, 10, 1⟩
        ⟨[("A", ⟨"A", true, 55⟩), ("B", ⟨"B", true, 1000⟩)]⟩).manager).engine
      = ⟨[], [⟨"B", SIDE.SELL, "X", 5, 10, 1⟩]⟩ := by
  refine ⟨?_, ?_, ?_, ?_, ?_⟩
  · simp [cannot_afford]
  · simp [MarketOrder.can_match]
    norm_num
  · simp [toMatch]; norm_num
  · simp [match_order, manager_after_check, cannot_afford, no_cross, passive_orders,
      add_order, push, ClientManager.getCapital, ClientManager.index,
      ClientManager.find, lookup]
    norm_num
  · simp [match_order, manager_after_check, cannot_afford, no_cross, passive_orders,
      add_order, push, ClientManager.getCapital, ClientManager.index,
      ClientManager.find, lookup]
    norm_num

/-- C6, amended: on the empty book, a call with an order `o1` that passes the
affordability check followed by a call with an order `o2` that passes it too, can match
`o1` (so is on the opposite side), has the same quantity and whose match validates,
gives over the two calls exactly one match, in the second call and for the common
quantity, and exactly two updates, the booking of `o1` with its full quantity and then
the zero update at the side and price of `o1`; both sides of the book are empty
afterwards. -/
theorem simple_cross (V : ClientManager → Match → Option SIDE) (mgr : ClientManager)
    (o1 o2 : MarketOrder)
    (h1 : cannot_afford o1 mgr = false) (h2 : cannot_afford o2 mgr = false)
    (hm : o1.can_match o2 = true) (hq : o1.quantity = o2.quantity)
    (hv : V (manager_after_check o2 (manager_after_check o1 mgr)) (toMatch o1 o2) = none) :
    (match_order V ⟨[], []⟩ o1 mgr).matched = [] ∧
    (match_order V (match_order V ⟨[], []⟩ o1 mgr).engine o2
      (match_order V ⟨[], []⟩ o1 mgr).manager).matched = [toMatch o1 o2] ∧
    (toMatch o1 o2).quantity = o1.quantity ∧
    (match_order V ⟨[], []⟩ o1 mgr).ob_updates ++
      (match_order V (match_order V ⟨[], []⟩ o1 mgr).engine o2
        (match_order V ⟨[], []⟩ o1 mgr).manager).ob_updates
      = [create_ob_update o1 o1.quantity, create_ob_update o1 0] ∧
    (match_order V (match_order V ⟨[], []⟩ o1 mgr).engine o2
      (match_order V ⟨[], []⟩ o1 mgr).manager).engine = ⟨[], []⟩ := by
  have hr1 : match_order V ⟨[], []⟩ o1 mgr
      = ⟨[], [create_ob_update o1 o1.quantity], add_order ⟨[], []⟩ o1,
          manager_after_check o1 mgr, ExitPath.no_cross⟩ := by
    have hno : no_cross ⟨[], []⟩ o1 = true := by
      unfold no_cross passive_orders
      split_ifs <;> rfl
    simp [match_order, h1, hno]
  have hside : o1.side ≠ o2.side := by
    intro hs
    simp [MarketOrder.can_match, hs] at hm
  have hpass : (add_order ⟨[], []⟩ o1).passive_orders o2 = [o1] := by
    cases hs1 : o1.side <;> cases hs2 : o2.side <;>
      simp [add_order, passive_orders, push, hs1, hs2] <;> simp [hs1, hs2] at hside
  have hset : (add_order ⟨[], []⟩ o1).set_passive_orders o2 [] = ⟨[], []⟩ := by
    cases hs1 : o1.side <;> cases hs2 : o2.side <;>
      simp [add_order, set_passive_orders, push, hs1, hs2] <;> simp [hs1, hs2] at hside
  have hno2 : no_cross (add_order ⟨[], []⟩ o1) o2 = false := by
    simp [no_cross, hpass, hm]
  have hmin : min o1.quantity o2.quantity = o1.quantity := by rw [hq]; exact min_self _
  have hloop : match_loop (V (manager_after_check o2 (manager_after_check o1 mgr))) [o1] o2
      [] [] = ⟨[], { o2 with quantity := o2.quantity - o1.quantity }, [toMatch o1 o2],
        [create_ob_update o1 0], ExitPath.aggressive_filled⟩ := by
    simp [match_loop, hm, hv, hmin, hq]
  have hr2 : match_order V (add_order ⟨[], []⟩ o1) o2 (manager_after_check o1 mgr)
      = ⟨[toMatch o1 o2], [create_ob_update o1 0], ⟨[], []⟩,
          manager_after_check o2 (manager_after_check o1 mgr),
          ExitPath.aggressive_filled⟩ := by
    simp [match_order, cannot_afford_after_check, h2, hno2, hpass, hloop, hset]
  rw [hr1]
  simp only [hr2]
  refine ⟨trivial, trivial, ?_, ?_, trivial⟩
  · simp [toMatch, hmin]
  · simp

/-- Witness of the amended C6: `A`, with capital 1000, books a buy order of 5 at 10 and
`B` sells 5 at 10. -/
theorem simple_cross_witness :
    (match_order validate_all ⟨[], []⟩ ⟨"A", SIDE.BUY, "X", 5, 10, 1⟩
      ⟨[("A", ⟨"A", true, 1000⟩), ("B", ⟨"B", true, 1000⟩)]⟩).ob_updates ++
      (match_order validate_all
        (match_order validate_all ⟨[], []⟩ ⟨"A", SIDE.BUY, "X", 5, 10, 1⟩
          ⟨[("A", ⟨"A", true, 1000⟩), ("B", ⟨"B", true, 1000⟩)]⟩).engine
        ⟨"B", SIDE.SELL, "X", 5, 10, 2⟩
        (match_order validate_all ⟨[], []⟩ ⟨"A", SIDE.BUY, "X", 5, 10, 1⟩
          ⟨[("A", ⟨"A", true, 1000⟩), ("B", ⟨"B", true, 1000⟩)]⟩).manager).ob_updates
      = [create_ob_update ⟨"A", SIDE.BUY, "X", 5, 10, 1⟩ 5,
         create_ob_update ⟨"A", SIDE.BUY, "X", 5, 10, 1⟩ 0] ∧
    (match_order validate_all
        (match_order validate_all ⟨[], []⟩ ⟨"A", SIDE.BUY, "X", 5, 10, 1⟩
          ⟨[("A", ⟨"A", true, 1000⟩), ("B", ⟨"B", true, 1000⟩)]⟩).engine
        ⟨"B", SIDE.SELL, "X", 5, 10, 2⟩
        (match_order validate_all ⟨[], []⟩ ⟨"A", SIDE.BUY, "X", 5, 10, 1⟩
          ⟨[("A", ⟨"A", true, 1000⟩), ("B", ⟨"B", true, 1000⟩)]⟩).manager).engine
      = ⟨[], []⟩ := by
  have h := simple_cross validate_all
    ⟨[("A", ⟨"A", true, 1000⟩), ("B", ⟨"B", true, 1000⟩)]⟩
    ⟨"A", SIDE.BUY, "X", 5, 10, 1⟩ ⟨"B", SIDE.SELL, "X", 5, 10, 2⟩
    (by
      simp [cannot_afford, ClientManager.getCapital, ClientManager.index,
        ClientManager.find, lookup]
      norm_num)
    (by simp [cannot_afford])
    (by simp [MarketOrder.can_match])
    rfl rfl
  exact ⟨h.2.2.2.1, h.2.2.2.2⟩

/-! ### C8: `validateMatch` names the side of the passive order -/

/-- C8 as stated fails for an aggressor of quantity 0: `A` rests a buy order of 5 at 10,
`B` arrives selling 0 at 10, and the ledger names the buying side as failing. The call
drops the order of `A` and, the quantity of the aggressor not being positive, books
nothing and emits nothing. The same call on the book without the order of `A` takes
the early return of lines 50 to 57, which books the aggressor and emits an update
without looking at its quantity. -/
theorem passive_failure_zero_quantity_example :
    (match_order (validate_fail SIDE.BUY) ⟨[⟨"A", SIDE.BUY, "X", 5, 10, 1⟩], []⟩
      ⟨"B", SIDE.SELL, "X", 0, 10, 2⟩ ⟨[]⟩).ob_updates = [] ∧
    (match_order (validate_fail SIDE.BUY) ⟨[⟨"A", SIDE.BUY, "X", 5, 10, 1⟩], []⟩
      ⟨"B", SIDE.SELL, "X", 0, 10, 2⟩ ⟨[]⟩).engine = ⟨[], []⟩ ∧
    (match_order (validate_fail SIDE.BUY) ⟨[], []⟩
      ⟨"B", SIDE.SELL, "X", 0, 10, 2⟩ ⟨[]⟩).ob_updates = [⟨"X", SIDE.SELL, 10, 0⟩] ∧
    (match_order (validate_fail SIDE.BUY) ⟨[], []⟩
      ⟨"B", SIDE.SELL, "X", 0, 10, 2⟩ ⟨[]⟩).engine
      = ⟨[], [⟨"B", SIDE.SELL, "X", 0, 10, 2⟩]⟩ := by
  simp [match_order, manager_after_check, cannot_afford, no_cross, passive_orders,
    set_passive_orders, match_loop, toMatch, create_ob_update, add_order, push,
    MarketOrder.can_match, validate_fail]

/-- C8, amended. At any iteration of the loop, when `validateMatch` names the side of
the passive order, the loop goes on with the rest of the queue and the same aggressor,
matches and updates: the passive order is popped, not booked again, and nothing is
emitted for it. For an aggressor of positive quantity that passes the affordability
check and meets such an order on top of the book, the matches, the updates, the book
and the client manager after the call are those of the same call on the book without
that order. -/
theorem passive_failure_drops_passive (V : ClientManager → Match → Option SIDE)
    (e : Engine) (a : MarketOrder) (mgr : ClientManager) (p : MarketOrder)
    (rest : List MarketOrder) (s : SIDE)
    (hpass : e.passive_orders a = p :: rest) (haff : cannot_afford a mgr = false)
    (hcan : p.can_match a = true)
    (hv : V (manager_after_check a mgr) (toMatch p a) = some s) (hs : s ≠ a.side)
    (hq : 0 < a.quantity) :
    (∀ (W : Match → Option SIDE) (p1 : MarketOrder) (rest1 : List MarketOrder)
        (a1 : MarketOrder) (ms : List Match) (us : List ObUpdate) (s1 : SIDE),
        p1.can_match a1 = true → W (toMatch p1 a1) = some s1 → s1 ≠ a1.side →
        match_loop W (p1 :: rest1) a1 ms us = match_loop W rest1 a1 ms us) ∧
    (match_order V e a mgr).matched
      = (match_order V (e.set_passive_orders a rest) a mgr).matched ∧
    (match_order V e a mgr).ob_updates
      = (match_order V (e.set_passive_orders a rest) a mgr).ob_updates ∧
    (match_order V e a mgr).engine
      = (match_order V (e.set_passive_orders a rest) a mgr).engine ∧
    (match_order V e a mgr).manager
      = (match_order V (e.set_passive_orders a rest) a mgr).manager := by
  refine ⟨fun W p1 rest1 a1 ms us s1 h1 h2 h3 =>
    match_loop_passive_failure W p1 rest1 a1 ms us s1 h1 h2 h3, ?_⟩
  have hno : no_cross e a = false := by simp [no_cross, hpass, hcan]
  have hloop := match_loop_passive_failure (V (manager_after_check a mgr)) p rest a [] []
    s hcan hv hs
  by_cases hno2 : no_cross (e.set_passive_orders a rest) a = true
  · have h2 : match_loop (V (manager_after_check a mgr)) rest a [] []
        = ⟨rest, a, [], [], ExitPath.loop_end⟩ := by
      apply match_loop_no_cross
      simpa [no_cross, passive_set_passive] using hno2
    simp [match_order, haff, hno, hno2, hpass, hloop, h2, hq]
  · simp [match_order, haff, hno, hno2, hpass, hloop, passive_set_passive,
      set_passive_set_passive]

/-- Witness of the amended C8: the order of `A` is dropped and `B`, selling 5, is booked,
as on the empty book. -/
theorem passive_failure_drops_passive_witness :
    (match_order (validate_fail SIDE.BUY) ⟨[⟨"A", SIDE.BUY, "X", 5, 10, 1⟩], []⟩
      ⟨"B", SIDE.SELL, "X", 5, 10, 2⟩ ⟨[]⟩).engine
      = (match_order (validate_fail SIDE.BUY)
          (Engine.set_passive_orders ⟨[⟨"A", SIDE.BUY, "X", 5, 10, 1⟩], []⟩
            ⟨"B", SIDE.SELL, "X", 5, 10, 2⟩ [])
          ⟨"B", SIDE.SELL, "X", 5, 10, 2⟩ ⟨[]⟩).engine :=
  (passive_failure_drops_passive (validate_fail SIDE.BUY)
    ⟨[⟨"A", SIDE.BUY, "X", 5, 10, 1⟩], []⟩ ⟨"B", SIDE.SELL, "X", 5, 10, 2⟩ ⟨[]⟩
    ⟨"A", SIDE.BUY, "X", 5, 10, 1⟩ [] SIDE.BUY
    (by simp [passive_orders]) (by simp [cannot_afford])
    (by simp [MarketOrder.can_match]) rfl (by decide) (by norm_num)).2.2.2.1

/-! ### C9: resting quantities stay positive -/

/-- C9: if every order resting in the bids and in the asks has a positive quantity and
the aggressor has a positive quantity, then after `match_order`, whichever return it
took, every order resting in the bids and in the asks has a positive quantity. -/
theorem match_order_keeps_quantities_positive (V : ClientManager → Match → Option SIDE)
    (e : Engine) (a : MarketOrder) (mgr : ClientManager)
    (hbids : ∀ o ∈ e.bids, 0 < o.quantity) (hasks : ∀ o ∈ e.asks, 0 < o.quantity)
    (hq : 0 < a.quantity) :
    (∀ o ∈ (match_order V e a mgr).engine.bids, 0 < o.quantity) ∧
    (∀ o ∈ (match_order V e a mgr).engine.asks, 0 < o.quantity) := by
  have he : e.positive := ⟨hbids, hasks⟩
  have hloop := match_loop_positive (V (manager_after_check a mgr)) (e.passive_orders a)
    a [] [] (positive_passive e a he)
  change (match_order V e a mgr).engine.positive
  unfold match_order
  simp only []
  split_ifs with h1 h2 h3
  · exact he
  · exact positive_add_order e a he hq
  · exact positive_add_order _ _ (positive_set_passive e a _ he hloop) h3.2
  · exact positive_set_passive e a _ he hloop

/-- Witness of C9: a buy order of 3 rests and a sell order of 5 arrives; the 2 that are
left are booked. -/
theorem match_order_keeps_quantities_positive_witness :
    (∀ o ∈ (match_order validate_all ⟨[⟨"A", SIDE.BUY, "X", 3, 10, 1⟩], []⟩
      ⟨"B", SIDE.SELL, "X", 5, 10, 2⟩ ⟨[]⟩).engine.bids, 0 < o.quantity) ∧
    (∀ o ∈ (match_order validate_all ⟨[⟨"A", SIDE.BUY, "X", 3, 10, 1⟩], []⟩
      ⟨"B", SIDE.SELL, "X", 5, 10, 2⟩ ⟨[]⟩).engine.asks, 0 < o.quantity) :=
  match_order_keeps_quantities_positive validate_all
    ⟨[⟨"A", SIDE.BUY, "X", 3, 10, 1⟩], []⟩ ⟨"B", SIDE.SELL, "X", 5, 10, 2⟩ ⟨[]⟩
    (by simp) (by simp) (by norm_num)

/-! ### C10: price-time priority -/

/-- C10: on a well formed book, let `o1` and `o2` rest on the passive side at the same
price, `o1` with the smaller sequence number, every other order of that side being
behind `o1`. Then `o1` is on top of the queue with `o2` behind it, and for an aggressor
that passes the affordability check, can match `o1` and whose match with `o1`
validates, the first match of the call is the one against `o1` (its counterparty is
the client of `o1`, which the code writes to `buyer_uid`). If `o1` is filled only in
part, it is booked again with its quantity reduced and every other field unchanged,
and it is again on top, ahead of `o2`: the ordering of the queue does not look at the
quantity. -/
theorem price_time_priority (V : ClientManager → Match → Option SIDE) (e : Engine)
    (a : MarketOrder) (mgr : ClientManager) (o1 o2 : MarketOrder)
    (others : List MarketOrder) (hwf : e.wellformed)
    (hperm : (e.passive_orders a).Perm (o1 :: others)) (ho2 : o2 ∈ others)
    (_hside : o1.side = o2.side) (hprice : o1.price = o2.price) (hseq : o1.seq < o2.seq)
    (hothers : ∀ o ∈ others, o = o2 ∨ o1.before o = true)
    (haff : cannot_afford a mgr = false) (hcan : o1.can_match a = true)
    (hv : V (manager_after_check a mgr) (toMatch o1 a) = none) :
    ∃ rest, e.passive_orders a = o1 :: rest ∧ o2 ∈ rest ∧
      (∃ later, (match_order V e a mgr).matched = toMatch o1 a :: later) ∧
      (toMatch o1 a).buyer_uid = o1.client_uid ∧
      (a.quantity < o1.quantity →
        (match_order V e a mgr).engine.passive_orders a
          = { o1 with quantity := o1.quantity - a.quantity } :: rest) ∧
      (∀ (p x : MarketOrder) (q : ℚ),
        MarketOrder.before { p with quantity := q } x = p.before x ∧
        MarketOrder.before x { p with quantity := q } = x.before p) := by
  have h12 : o1.before o2 = true := by
    cases hs : o1.side <;> simp [MarketOrder.before, hs, hprice, hseq]
  have hbest : ∀ o ∈ others, o1.before o = true := by
    intro o ho
    rcases hothers o ho with h | h
    · rw [h]; exact h12
    · exact h
  obtain ⟨rest, hpass, hrest⟩ := sorted_top _ o1 others (wellformed_passive e a hwf) hperm
    hbest
  have hno : no_cross e a = false := by simp [no_cross, hpass, hcan]
  refine ⟨rest, hpass, hrest.symm.subset ho2, ?_, rfl, ?_, fun p x q => ⟨rfl, rfl⟩⟩
  · obtain ⟨later, hl⟩ :=
      match_loop_first_match (V (manager_after_check a mgr)) o1 rest a hcan hv
    refine ⟨later, ?_⟩
    rw [← hl]
    unfold match_order
    simp only [haff, hno, hpass, Bool.false_eq_true, if_false]
    split_ifs <;> rfl
  · intro hlt
    have hmin : min o1.quantity a.quantity = a.quantity := min_eq_right (le_of_lt hlt)
    have hpos : 0 < o1.quantity - a.quantity := sub_pos.2 hlt
    have hpush : push rest { o1 with quantity := o1.quantity - a.quantity }
        = { o1 with quantity := o1.quantity - a.quantity } :: rest :=
      push_top rest _ (fun x hx => hbest x (hrest.subset hx))
    have hloop : match_loop (V (manager_after_check a mgr)) (o1 :: rest) a [] []
        = ⟨{ o1 with quantity := o1.quantity - a.quantity } :: rest,
            { a with quantity := a.quantity - a.quantity }, [toMatch o1 a],
            [create_ob_update o1 0,
              create_ob_update { o1 with quantity := o1.quantity - a.quantity }
                (o1.quantity - a.quantity)],
            ExitPath.passive_rebooked⟩ := by
      simp [match_loop, hcan, hv, hmin, hpos, hpush]
    simp [match_order, haff, hno, hpass, hloop, passive_set_passive]

/-- Witness of C10: `C` and then `B` book sell orders of 5 at 10, `B` with the smaller
sequence number, and `A` buys 5 at 10; the match is against `B`. -/
theorem price_time_priority_witness :
    ∃ rest, Engine.passive_orders
        ⟨[], push (push [] ⟨"C", SIDE.SELL, "X", 5, 10, 2⟩) ⟨"B", SIDE.SELL, "X", 5, 10, 1⟩⟩
        ⟨"A", SIDE.BUY, "X", 5, 10, 3⟩ = ⟨"B", SIDE.SELL, "X", 5, 10, 1⟩ :: rest ∧
      (⟨"C", SIDE.SELL, "X", 5, 10, 2⟩ : MarketOrder) ∈ rest ∧
      ∃ later, (match_order validate_all
        ⟨[], push (push [] ⟨"C", SIDE.SELL, "X", 5, 10, 2⟩) ⟨"B", SIDE.SELL, "X", 5, 10, 1⟩⟩
        ⟨"A", SIDE.BUY, "X", 5, 10, 3⟩ ⟨[("A", ⟨"A", true, 1000⟩)]⟩).matched
        = toMatch ⟨"B", SIDE.SELL, "X", 5, 10, 1⟩ ⟨"A", SIDE.BUY, "X", 5, 10, 3⟩ :: later := by
  obtain ⟨rest, h1, h2, h3, _⟩ := price_time_priority validate_all
    ⟨[], push (push [] ⟨"C", SIDE.SELL, "X", 5, 10, 2⟩) ⟨"B", SIDE.SELL, "X", 5, 10, 1⟩⟩
    ⟨"A", SIDE.BUY, "X", 5, 10, 3⟩ ⟨[("A", ⟨"A", true, 1000⟩)]⟩
    ⟨"B", SIDE.SELL, "X", 5, 10, 1⟩ ⟨"C", SIDE.SELL, "X", 5, 10, 2⟩
    [⟨"C", SIDE.SELL, "X", 5, 10, 2⟩]
    (by simp [wellformed, sorted, push, MarketOrder.before])
    (by simp [passive_orders, push, MarketOrder.before])
    (by simp) rfl rfl (by decide) (by simp)
    (by
      simp [cannot_afford, ClientManager.getCapital, ClientManager.index,
        ClientManager.find, lookup]
      norm_num)
    (by simp [MarketOrder.can_match]) rfl
  exact ⟨rest, h1, h2, h3⟩

/-! ### C11: `setClientActive` -/

/-- The subscript `clients[uid]` leaves every other key as it is. -/
theorem find_index_other (m : ClientManager) (uid k : String) (h : uid ≠ k) :
    (m.index uid).2.find k = m.find k := by
  unfold ClientManager.index
  cases hf : m.find uid with
  | some c => rfl
  | none => simp [ClientManager.find, lookup_assign, h]

/-- What the client map holds after `setClientActive`: under `uid` the client that
`clients[uid]` gives, with the flag set; under every other key what it held before. -/
theorem find_setClientActive (m : ClientManager) (uid k : String) :
    (m.setClientActive uid).find k
      = if uid = k then some { (m.index uid).1 with active := true } else m.find k := by
  by_cases h : uid = k
  · simp [ClientManager.setClientActive, ClientManager.find, lookup_assign, h]
  · have h1 := find_index_other m uid k h
    simp only [ClientManager.find] at h1
    simp [ClientManager.setClientActive, ClientManager.find, lookup_assign, h, h1]

/-- On a registered id `setClientActive` sets the flag of that client and changes nothing
else: its uid and its capital are kept and every other client is as before. -/
theorem setClientActive_registered (m : ClientManager) (uid : String) (c : Client)
    (h : m.find uid = some c) :
    (m.setClientActive uid).find uid = some { c with active := true } ∧
    ∀ k, k ≠ uid → (m.setClientActive uid).find k = m.find k := by
  have hi : (m.index uid).1 = c := by simp [ClientManager.index, h]
  refine ⟨by rw [find_setClientActive, hi]; simp, fun k hk => ?_⟩
  have hk1 : ¬ uid = k := fun h1 => hk h1.symm
  rw [find_setClientActive, if_neg hk1]

/-- C11, at the input that breaks it: the client map holds `A` only and
`setClientActive` is called with `ghost`. The call does not fail silently: the
subscript `clients["ghost"]` inserts a value-initialised client, whose flag is then
set, so afterwards the map holds a second client, active, with empty uid and capital
`0`, and is not the map of before the call. -/
theorem setClientActive_unregistered :
    ClientManager.find ⟨[("A", ⟨"A", false, 1000⟩)]⟩ "ghost" = none ∧
    ClientManager.setClientActive ⟨[("A", ⟨"A", false, 1000⟩)]⟩ "ghost"
      = ⟨[("A", ⟨"A", false, 1000⟩), ("ghost", ⟨"", true, 0⟩)]⟩ ∧
    ClientManager.setClientActive ⟨[("A", ⟨"A", false, 1000⟩)]⟩ "ghost"
      ≠ ⟨[("A", ⟨"A", false, 1000⟩)]⟩ := by
  simp [ClientManager.setClientActive, ClientManager.index, ClientManager.find, lookup,
    assign, Client.value_init]

/-! ### C12: `waitForClients` -/

/-- The loop on a stretch of the stream that holds no `RMQError`: it reads the whole
stretch and marks the clients that reported ready. -/
theorem wait_loop_no_error (inbound : ℕ → IncomingMessage) (n : ℕ) :
    ∀ (pos : ℕ) (c : ClientManager),
      (∀ i, pos ≤ i → i < pos + n → (inbound i).is_error = false) →
      (RabbitMQ.wait_loop inbound n pos c).consumed = pos + n ∧
      (RabbitMQ.wait_loop inbound n pos c).clients
        = ((List.range' pos n).map inbound).foldl RabbitMQ.mark_ready c := by
  induction n with
  | zero => intro pos c _; simp [RabbitMQ.wait_loop]
  | succ n ih =>
    intro pos c h
    have h0 := h pos (le_refl _) (by omega)
    have hrest : ∀ i, pos + 1 ≤ i → i < pos + 1 + n → (inbound i).is_error = false :=
      fun i h1 h2 => h i (by omega) (by omega)
    simp only [RabbitMQ.wait_loop, List.range'_succ, List.map_cons, List.foldl_cons]
    cases hm : inbound pos with
    | error msg => simp [hm, IncomingMessage.is_error] at h0
    | order o =>
      simp only [RabbitMQ.mark_ready]
      have := ih (pos + 1) c hrest
      exact ⟨by omega, this.2⟩
    | init uid ready =>
      cases ready with
      | true =>
        have := ih (pos + 1) (c.setClientActive uid) hrest
        exact ⟨by simp only [if_true]; omega, by simpa [RabbitMQ.mark_ready] using this.2⟩
      | false =>
        have := ih (pos + 1) c hrest
        exact ⟨by simp only [Bool.false_eq_true, if_false]; omega,
          by simpa [RabbitMQ.mark_ready] using this.2⟩

/-- The loop on a stretch of the stream whose first `RMQError` is the message `k`: it
reads up to and with that message, marks the clients that reported ready before it,
and returns. -/
theorem wait_loop_error (inbound : ℕ → IncomingMessage) (n : ℕ) :
    ∀ (pos : ℕ) (c : ClientManager) (d : ℕ), d < n →
      (inbound (pos + d)).is_error = true →
      (∀ i, pos ≤ i → i < pos + d → (inbound i).is_error = false) →
      (RabbitMQ.wait_loop inbound n pos c).consumed = pos + d + 1 ∧
      (RabbitMQ.wait_loop inbound n pos c).clients
        = ((List.range' pos d).map inbound).foldl RabbitMQ.mark_ready c := by
  induction n with
  | zero => intro pos c d hd; omega
  | succ n ih =>
    intro pos c d hd herr h
    cases d with
    | zero =>
      simp only [RabbitMQ.wait_loop]
      cases hm : inbound pos with
      | error msg => simp
      | order o => simp [hm, IncomingMessage.is_error] at herr
      | init uid ready => simp [hm, IncomingMessage.is_error] at herr
    | succ d =>
      have h0 := h pos (le_refl _) (by omega)
      have herr1 : (inbound (pos + 1 + d)).is_error = true := by
        have : pos + 1 + d = pos + (d + 1) := by omega
        rw [this]; exact herr
      have hrest : ∀ i, pos + 1 ≤ i → i < pos + 1 + d → (inbound i).is_error = false :=
        fun i h1 h2 => h i (by omega) (by omega)
      simp only [RabbitMQ.wait_loop, List.range'_succ, List.map_cons, List.foldl_cons]
      cases hm : inbound pos with
      | error msg => simp [hm, IncomingMessage.is_error] at h0
      | order o =>
        simp only [RabbitMQ.mark_ready]
        have := ih (pos + 1) c d (by omega) herr1 hrest
        exact ⟨by omega, this.2⟩
      | init uid ready =>
        cases ready with
        | true =>
          have := ih (pos + 1) (c.setClientActive uid) d (by omega) herr1 hrest
          exact ⟨by simp only [if_true]; omega,
            by simpa [RabbitMQ.mark_ready] using this.2⟩
        | false =>
          have := ih (pos + 1) c d (by omega) herr1 hrest
          exact ⟨by simp only [Bool.false_eq_true, if_false]; omega,
            by simpa [RabbitMQ.mark_ready] using this.2⟩

/-- C12 as stated fails: with `N = 2` and an inbound stream that begins with an
`RMQError` followed by a ready message of `A`, the call consumes one message, not
two, and `A` is not marked active: the client map is the one of before the call. -/
theorem waitForClients_stops_at_error_example :
    (RabbitMQ.waitForClients
      (stream_of [IncomingMessage.error "decode", IncomingMessage.init "A" true]) 2
      ⟨[("A", ⟨"A", false, 1000⟩)]⟩).consumed = 1 ∧
    (RabbitMQ.waitForClients
      (stream_of [IncomingMessage.error "decode", IncomingMessage.init "A" true]) 2
      ⟨[("A", ⟨"A", false, 1000⟩)]⟩).consumed ≠ 2 ∧
    (RabbitMQ.waitForClients
      (stream_of [IncomingMessage.error "decode", IncomingMessage.init "A" true]) 2
      ⟨[("A", ⟨"A", false, 1000⟩)]⟩).clients = ⟨[("A", ⟨"A", false, 1000⟩)]⟩ := by
  have h2 : (2 : ℤ).toNat = 2 := rfl
  simp [RabbitMQ.waitForClients, h2, RabbitMQ.wait_loop, stream_of]

/-- C12, amended. If none of the first `N` inbound messages is an `RMQError`,
`waitForClients(N, clients)` consumes exactly `N` messages: a `MarketOrder` is discarded
and counted, an `InitMessage` with `ready = true` has `setClientActive` called for its
client, one with `ready = false` changes nothing and is counted. If one of the first `N`
messages is an `RMQError`, the call returns at the first of them, having consumed that
message and those before it, fewer than `N` when the error is not the last of the `N`,
and having handled the messages before it in the same way. -/
theorem waitForClients_consumes (inbound : ℕ → IncomingMessage) (N : ℤ)
    (clients : ClientManager) :
    ((∀ i, i < N.toNat → (inbound i).is_error = false) →
      ((RabbitMQ.waitForClients inbound N clients).consumed : ℤ) = max N 0 ∧
      (RabbitMQ.waitForClients inbound N clients).clients
        = (RabbitMQ.first_messages inbound N.toNat).foldl RabbitMQ.mark_ready clients) ∧
    (∀ k, k < N.toNat → (inbound k).is_error = true →
      (∀ i, i < k → (inbound i).is_error = false) →
      (RabbitMQ.waitForClients inbound N clients).consumed = k + 1 ∧
      (RabbitMQ.waitForClients inbound N clients).clients
        = (RabbitMQ.first_messages inbound k).foldl RabbitMQ.mark_ready clients) := by
  constructor
  · intro h
    have := wait_loop_no_error inbound N.toNat 0 clients
      (fun i _ h2 => h i (by omega))
    refine ⟨?_, ?_⟩
    · unfold RabbitMQ.waitForClients
      rw [this.1]
      omega
    · unfold RabbitMQ.waitForClients RabbitMQ.first_messages
      rw [this.2, List.range_eq_range']
  · intro k hk herr h
    have := wait_loop_error inbound N.toNat 0 clients k hk (by simpa using herr)
      (fun i _ h2 => h i (by omega))
    refine ⟨?_, ?_⟩
    · unfold RabbitMQ.waitForClients
      rw [this.1]
      omega
    · unfold RabbitMQ.waitForClients RabbitMQ.first_messages
      rw [this.2, List.range_eq_range']

/-- Witness of the amended C12: three clients are expected, the stream begins with a ready
message of `A`, a market order and a message of `B` that is not ready; three messages
are consumed. -/
theorem waitForClients_consumes_witness :
    ((RabbitMQ.waitForClients
      (stream_of [IncomingMessage.init "A" true,
        IncomingMessage.order ⟨"A", SIDE.BUY, "X", 1, 1, 0⟩,
        IncomingMessage.init "B" false]) 3
      ⟨[("A", ⟨"A", false, 1000⟩), ("B", ⟨"B", false, 1000⟩)]⟩).consumed : ℤ) = max 3 0 :=
  ((waitForClients_consumes
      (stream_of [IncomingMessage.init "A" true,
        IncomingMessage.order ⟨"A", SIDE.BUY, "X", 1, 1, 0⟩,
        IncomingMessage.init "B" false]) 3
      ⟨[("A", ⟨"A", false, 1000⟩), ("B", ⟨"B", false, 1000⟩)]⟩).1
    (by
      intro i hi
      have h3 : (3 : ℤ).toNat = 3 := rfl
      rw [h3] at hi
      interval_cases i <;> simp [stream_of, IncomingMessage.is_error])).1

/-! ### C13: `addClient` -/

/-- C13: on an id that is not present `addClient` inserts a client with that uid, the
capital `STARTING_CAPITAL` and `active = false` and leaves every other client as it
is; on an id that is present it leaves the whole client map as it is; and calling it
twice with one id gives the map that calling it once gives. -/
theorem addClient_idempotent (m : ClientManager) (uid : String) :
    (m.find uid = none →
      (m.addClient uid).find uid = some ⟨uid, false, STARTING_CAPITAL⟩ ∧
      ∀ k, k ≠ uid → (m.addClient uid).find k = m.find k) ∧
    (∀ c, m.find uid = some c → m.addClient uid = m) ∧
    (m.addClient uid).addClient uid = m.addClient uid := by
  have hnew : m.find uid = none →
      (m.addClient uid).find uid = some ⟨uid, false, STARTING_CAPITAL⟩ := by
    intro h
    have h0 : lookup m.clients uid = none := h
    simp [ClientManager.addClient, ClientManager.find, h0, lookup_assign]
  refine ⟨fun h => ⟨hnew h, fun k hk => ?_⟩, fun c h => ?_, ?_⟩
  · have hk1 : ¬ uid = k := fun h1 => hk h1.symm
    have h0 : lookup m.clients uid = none := h
    simp [ClientManager.addClient, ClientManager.find, h0, lookup_assign, hk1]
  · simp [ClientManager.addClient, h]
  · cases hf : m.find uid with
    | some c => simp [ClientManager.addClient, hf]
    | none =>
      have h1 := hnew hf
      unfold ClientManager.addClient at h1 ⊢
      simp only [hf, Option.isSome_none, Bool.false_eq_true, if_false] at h1 ⊢
      simp [h1]

/-- Witness of C13: `B` is added to a map that holds `A` with a capital of 7 and the
flag set; `A` is as before, and adding `A` again changes nothing. -/
theorem addClient_idempotent_witness :
    (ClientManager.addClient ⟨[("A", ⟨"A", true, 7⟩)]⟩ "B").find "B"
      = some ⟨"B", false, STARTING_CAPITAL⟩ ∧
    ClientManager.addClient ⟨[("A", ⟨"A", true, 7⟩)]⟩ "A" = ⟨[("A", ⟨"A", true, 7⟩)]⟩ :=
  ⟨((addClient_idempotent ⟨[("A", ⟨"A", true, 7⟩)]⟩ "B").1
      (by simp [ClientManager.find, lookup])).1,
    (addClient_idempotent ⟨[("A", ⟨"A", true, 7⟩)]⟩ "A").2.1 ⟨"A", true, 7⟩
      (by simp [ClientManager.find, lookup])⟩

/-! ### C14: conservation of the quantity of the aggressor -/

/-- The aggressor never leaves the loop with a negative quantity. -/
theorem match_loop_remaining_nonneg (V : Match → Option SIDE) (ps : List MarketOrder) :
    ∀ (a : MarketOrder) (ms : List Match) (us : List ObUpdate), 0 ≤ a.quantity →
      0 ≤ (match_loop V ps a ms us).aggressive_order.quantity := by
  induction ps with
  | nil => intro a ms us h; simp [match_loop, h]
  | cons p rest ih =>
    intro a ms us h
    have hmin : 0 ≤ a.quantity - min p.quantity a.quantity :=
      sub_nonneg.2 (min_le_right _ _)
    simp only [match_loop]
    by_cases hc : p.can_match a = true
    · simp only [hc, if_true]
      cases hv : V (toMatch p a) with
      | some s =>
        simp only []
        by_cases hs : s = a.side
        · simpa [hs] using h
        · simp only [hs, if_false]
          exact ih a ms us h
      | none =>
        simp only []
        by_cases hp : p.quantity - min p.quantity a.quantity > 0
        · simp [hp, hmin]
        · simp only [hp, if_false]
          by_cases hq : a.quantity - min p.quantity a.quantity ≤ 0
          · simp [hq, hmin]
          · simp only [hq, if_false]
            exact ih _ _ _ hmin
    · simpa [hc] using h

/-- An aggressor of positive quantity that leaves the loop through its condition has a
positive quantity left. -/
theorem match_loop_end_positive (V : Match → Option SIDE) (ps : List MarketOrder) :
    ∀ (a : MarketOrder) (ms : List Match) (us : List ObUpdate), 0 < a.quantity →
      (match_loop V ps a ms us).exit = ExitPath.loop_end →
      0 < (match_loop V ps a ms us).aggressive_order.quantity := by
  induction ps with
  | nil => intro a ms us h _; simp [match_loop, h]
  | cons p rest ih =>
    intro a ms us h
    simp only [match_loop]
    by_cases hc : p.can_match a = true
    · simp only [hc, if_true]
      cases hv : V (toMatch p a) with
      | some s =>
        simp only []
        by_cases hs : s = a.side
        · simp [hs]
        · simp only [hs, if_false]
          exact ih a ms us h
      | none =>
        simp only []
        by_cases hp : p.quantity - min p.quantity a.quantity > 0
        · simp [hp]
        · simp only [hp, if_false]
          by_cases hq : a.quantity - min p.quantity a.quantity ≤ 0
          · simp [hq]
          · simp only [hq, if_false]
            exact ih _ _ _ (not_le.1 hq)
    · intro _; simpa [hc] using h

/-- The loop is never left through the return of line 56. -/
theorem match_loop_exit_ne_no_cross (V : Match → Option SIDE) (ps : List MarketOrder) :
    ∀ (a : MarketOrder) (ms : List Match) (us : List ObUpdate),
      (match_loop V ps a ms us).exit ≠ ExitPath.no_cross := by
  induction ps with
  | nil => intro a ms us; simp [match_loop]
  | cons p rest ih =>
    intro a ms us
    simp only [match_loop]
    by_cases hc : p.can_match a = true
    · simp only [hc, if_true]
      cases hv : V (toMatch p a) with
      | some s =>
        simp only []
        by_cases hs : s = a.side
        · simp [hs]
        · simp only [hs, if_false]
          exact ih a ms us
      | none =>
        simp only []
        by_cases hp : p.quantity - min p.quantity a.quantity > 0
        · simp [hp]
        · simp only [hp, if_false]
          by_cases hq : a.quantity - min p.quantity a.quantity ≤ 0
          · simp [hq]
          · simp only [hq, if_false]
            exact ih _ _ _
    · simp [hc]

/-- C14: on a book whose resting orders have positive quantities, for an aggressor of
positive quantity, the quantities of the returned matches sum to at most the quantity
of the aggressor; and when the call ends by booking the aggressor (the return of line
56 or the one of line 106), the last update announces, and the aggressor is pushed on
its own side with, the quantity it came with less that sum. -/
theorem quantity_conservation (V : ClientManager → Match → Option SIDE) (e : Engine)
    (a : MarketOrder) (mgr : ClientManager)
    (_hbids : ∀ o ∈ e.bids, 0 < o.quantity) (_hasks : ∀ o ∈ e.asks, 0 < o.quantity)
    (hq : 0 < a.quantity) :
    ((match_order V e a mgr).matched.map Match.quantity).sum ≤ a.quantity ∧
    ((match_order V e a mgr).exit = ExitPath.no_cross ∨
        (match_order V e a mgr).exit = ExitPath.loop_end →
      (match_order V e a mgr).ob_updates.getLast?
        = some (create_ob_update a
            (a.quantity - ((match_order V e a mgr).matched.map Match.quantity).sum)) ∧
      (a.side = SIDE.BUY → (match_order V e a mgr).engine.bids
        = push e.bids { a with quantity :=
            a.quantity - ((match_order V e a mgr).matched.map Match.quantity).sum }) ∧
      (a.side ≠ SIDE.BUY → (match_order V e a mgr).engine.asks
        = push e.asks { a with quantity :=
            a.quantity - ((match_order V e a mgr).matched.map Match.quantity).sum })) := by
  have hagg := match_loop_aggressive_order (V (manager_after_check a mgr))
    (e.passive_orders a) a
  have hnn := match_loop_remaining_nonneg (V (manager_after_check a mgr))
    (e.passive_orders a) a [] [] (le_of_lt hq)
  have hend := match_loop_end_positive (V (manager_after_check a mgr))
    (e.passive_orders a) a [] [] hq
  have hsum : ((match_loop (V (manager_after_check a mgr)) (e.passive_orders a) a [] []
      ).matched.map Match.quantity).sum ≤ a.quantity := by
    rw [hagg] at hnn
    exact sub_nonneg.1 hnn
  have ha0 : ({ a with quantity := a.quantity - (([] : List Match).map Match.quantity).sum }
      : MarketOrder) = a := by
    cases a; simp
  unfold match_order
  simp only []
  split_ifs with h1 h2 h3
  · exact ⟨by simpa using le_of_lt hq, by simp⟩
  · refine ⟨by simpa using le_of_lt hq, fun _ => ⟨by simp, ?_, ?_⟩⟩
    · intro hs; rw [ha0]; simp [add_order, hs]
    · intro hs; rw [ha0]; simp [add_order, hs]
  · refine ⟨hsum, fun _ => ⟨?_, ?_, ?_⟩⟩
    · rw [List.getLast?_concat, hagg]
      rfl
    · intro hs
      have hs2 : ¬ a.side = SIDE.SELL := by rw [hs]; decide
      rw [hagg]
      simp [add_order, set_passive_orders, hs, hs2]
    · intro hs
      have hs2 : a.side = SIDE.SELL := by
        cases h5 : a.side
        · exact absurd h5 hs
        · rfl
      rw [hagg]
      simp [add_order, set_passive_orders, hs2]
  · refine ⟨hsum, ?_⟩
    intro hx
    exfalso
    rcases hx with hx | hx
    · exact match_loop_exit_ne_no_cross _ _ _ _ _ hx
    · exact h3 ⟨hx, hend hx⟩

/-- Witness of C14: a buy order of 3 rests and a sell order of 5 arrives; 3 are matched
and the order is booked with the 2 that are left. -/
theorem quantity_conservation_witness :
    ((match_order validate_all ⟨[⟨"A", SIDE.BUY, "X", 3, 10, 1⟩], []⟩
      ⟨"B", SIDE.SELL, "X", 5, 10, 2⟩ ⟨[]⟩).matched.map Match.quantity).sum ≤ 5 :=
  (quantity_conservation validate_all ⟨[⟨"A", SIDE.BUY, "X", 3, 10, 1⟩], []⟩
    ⟨"B", SIDE.SELL, "X", 5, 10, 2⟩ ⟨[]⟩ (by simp) (by simp) (by norm_num)).1
